import Mathlib

/-!
Verification of the jass tonal-tension engine (backend/jass) against its
specification.  The Python sources are shallowly embedded: pure functions
become Lean functions, numpy float arrays become lists/vectors over exact
fields (ℚ, ℚ(√3), and ℝ where square roots or transcendental functions are
involved), and fallible code returns `Except`.  NaN is modelled by `Option`
(`none` = NaN), and the float `inf` by `WithTop`.
-/

namespace Jass

/-- Error value standing for the repository's `ChromaInputError` exception
(`chroma_index.py`). -/
inductive ChromaErr where
  | badLength (n : ℕ)
  | badBit
  | badMask
  | badShape
  | emptyChroma
deriving DecidableEq

/-- `CHROMA_LEN` from `chroma_index.py`. -/
def CHROMA_LEN : ℕ := 12

/-- The loop body of `chroma_index.bits_to_mask`: walks the bit list with its
index, rejects entries other than 0/1, and accumulates `mask |= 1 << i` for
each set bit.  Every iteration contributes a distinct bit position, so the
running bitwise-or is written as a sum of `2 ^ i` contributions. -/
def bitsToMaskLoop : List ℕ → ℕ → Except ChromaErr ℕ
  | [], _ => .ok 0
  | b :: bs, i =>
    if b ≠ 0 ∧ b ≠ 1 then .error .badBit
    else
      match bitsToMaskLoop bs (i + 1) with
      | .error e => .error e
      | .ok rest => .ok ((if b = 1 then 2 ^ i else 0) + rest)

/-- Embedding of `chroma_index.bits_to_mask`. -/
def bits_to_mask (bits : List ℕ) : Except ChromaErr ℕ :=
  if bits.length ≠ CHROMA_LEN then .error (.badLength bits.length)
  else bitsToMaskLoop bits 0

/-- Embedding of `chroma_index.mask_to_bits`.  The Python input is an `int`,
so the argument is ℤ and both range checks of the source are kept; for
in-range masks the Python `(mask >> i) & 1` coincides with the ℕ operation. -/
def mask_to_bits (mask : ℤ) : Except ChromaErr (List ℕ) :=
  if mask < 0 ∨ (2 ^ CHROMA_LEN : ℤ) ≤ mask then .error .badMask
  else .ok ((List.range CHROMA_LEN).map (fun i => (mask.toNat >>> i) &&& 1))

/-- Numeric value of a bit list, low bit first: the mask that
`bits_to_mask` computes on valid input. -/
def bitsVal : List ℕ → ℕ
  | [] => 0
  | b :: bs => (if b = 1 then 1 else 0) + 2 * bitsVal bs

/-- A list is a valid chroma payload when every entry is 0 or 1. -/
def ValidBits (bits : List ℕ) : Prop := ∀ b ∈ bits, b = 0 ∨ b = 1

instance : DecidablePred ValidBits := fun bits =>
  inferInstanceAs (Decidable (∀ b ∈ bits, b = 0 ∨ b = 1))

theorem bitsToMaskLoop_ok (bits : List ℕ) (h : ValidBits bits) :
    ∀ i, bitsToMaskLoop bits i = .ok (2 ^ i * bitsVal bits) := by
  induction bits with
  | nil => intro i; simp [bitsToMaskLoop, bitsVal]
  | cons b bs ih =>
    intro i
    have hb : b = 0 ∨ b = 1 := h b (List.mem_cons_self b bs)
    have hbs : ValidBits bs := fun x hx => h x (List.mem_cons_of_mem b hx)
    have hcond : ¬(b ≠ 0 ∧ b ≠ 1) := by rcases hb with hb | hb <;> simp [hb]
    rw [bitsToMaskLoop, if_neg hcond, ih hbs (i + 1)]
    rcases hb with hb | hb <;>
      simp [hb, bitsVal, pow_succ] <;> ring

theorem bitsVal_lt (bits : List ℕ) : bitsVal bits < 2 ^ bits.length := by
  induction bits with
  | nil => simp [bitsVal]
  | cons b bs ih =>
    have : (if b = 1 then 1 else 0) ≤ 1 := by split <;> omega
    simp only [bitsVal, List.length_cons, pow_succ]
    omega

theorem bitsVal_shiftRight (bits : List ℕ) (h : ValidBits bits) :
    ∀ j, (bitsVal bits >>> j) &&& 1 = bits.getD j 0 := by
  induction bits with
  | nil => intro j; simp [bitsVal]
  | cons b bs ih =>
    intro j
    have hb : b = 0 ∨ b = 1 := h b (List.mem_cons_self b bs)
    have hbs : ValidBits bs := fun x hx => h x (List.mem_cons_of_mem b hx)
    cases j with
    | zero =>
      have hv : bitsVal (b :: bs) % 2 = b := by
        rcases hb with hb | hb <;> simp [bitsVal, hb, Nat.add_mul_mod_self_left]
      simpa [Nat.and_one_is_mod] using hv
    | succ j =>
      have h2 : bitsVal (b :: bs) / 2 = bitsVal bs := by
        rcases hb with hb | hb <;> simp [bitsVal, hb] <;> omega
      have hstep : bitsVal (b :: bs) >>> (j + 1) = bitsVal bs >>> j := by
        rw [Nat.add_comm j 1, Nat.shiftRight_add, Nat.shiftRight_one, h2]
      rw [hstep, ih hbs j]
      simp

theorem bitsVal_of_mask (k : ℕ) (m : ℕ) :
    bitsVal ((List.range k).map (fun i => (m >>> i) &&& 1)) = m % 2 ^ k := by
  induction k generalizing m with
  | zero => simp [bitsVal, Nat.mod_one]
  | succ k ih =>
    rw [List.range_succ_eq_map]
    simp only [List.map_cons, List.map_map]
    have head : (m >>> 0) &&& 1 = m % 2 := by
      simp [Nat.and_one_is_mod]
    have tail :
        ((List.range k).map (fun i => (m >>> (i + 1)) &&& 1)) =
        ((List.range k).map (fun i => ((m >>> 1) >>> i) &&& 1)) := by
      apply List.map_congr_left
      intro i _
      rw [Nat.add_comm i 1, Nat.shiftRight_add]
    have comp_eq :
        ((fun i => (m >>> i) &&& 1) ∘ Nat.succ) =
        (fun i => (m >>> (i + 1)) &&& 1) := by
      funext i; rfl
    rw [bitsVal, comp_eq, head, tail, ih (m >>> 1)]
    have hm1 : m >>> 1 = m / 2 := Nat.shiftRight_one m
    rw [hm1]
    have hif : (if m % 2 = 1 then 1 else 0) = m % 2 := by
      rcases Nat.mod_two_eq_zero_or_one m with h | h <;> simp [h]
    rw [hif]
    -- m % 2 + 2 * (m / 2 % 2 ^ k) = m % 2 ^ (k+1)
    have e2 : (0:ℕ) < 2 ^ k := Nat.pos_pow_of_pos k (by omega)
    have h1 : (2 * (m / 2)) % (2 * 2 ^ k) = 2 * (m / 2 % 2 ^ k) :=
      Nat.mul_mod_mul_left 2 (m / 2) (2 ^ k)
    have hb : m % 2 < 2 := Nat.mod_lt m (by omega)
    have hsmall : m % 2 + 2 * (m / 2 % 2 ^ k) < 2 * 2 ^ k := by
      have : m / 2 % 2 ^ k < 2 ^ k := Nat.mod_lt _ e2
      omega
    have hsplit : m % 2 ^ (k + 1) = m % 2 + 2 * (m / 2 % 2 ^ k) := by
      conv_lhs => rw [← Nat.div_add_mod m 2]
      rw [pow_succ, Nat.mul_comm (2 ^ k) 2]
      calc (2 * (m / 2) + m % 2) % (2 * 2 ^ k)
          = ((2 * (m / 2)) % (2 * 2 ^ k) + m % 2 % (2 * 2 ^ k)) % (2 * 2 ^ k) := by
            rw [← Nat.add_mod]
        _ = (2 * (m / 2 % 2 ^ k) + m % 2) % (2 * 2 ^ k) := by
            rw [h1, Nat.mod_eq_of_lt (by omega : m % 2 < 2 * 2 ^ k)]
        _ = m % 2 + 2 * (m / 2 % 2 ^ k) := by
            rw [Nat.add_comm]; exact Nat.mod_eq_of_lt hsmall
    omega

theorem valid_mask_bits (m : ℕ) :
    ValidBits ((List.range CHROMA_LEN).map (fun i => (m >>> i) &&& 1)) := by
  intro b hb
  rcases List.mem_map.1 hb with ⟨i, _, rfl⟩
  have : (m >>> i) &&& 1 = (m >>> i) % 2 := Nat.and_one_is_mod _
  rw [this]
  omega

theorem bits_to_mask_ok (bits : List ℕ) (hlen : bits.length = 12)
    (hv : ValidBits bits) : bits_to_mask bits = .ok (bitsVal bits) := by
  rw [bits_to_mask, if_neg (by simp [hlen, CHROMA_LEN]), bitsToMaskLoop_ok bits hv 0]
  norm_num

/-- C5: `mask_to_bits ∘ bits_to_mask` is the identity on every length-12
vector of 0/1 entries; `bits_to_mask ∘ mask_to_bits` is the identity on every
integer mask in [0, 4096); and `mask_to_bits` rejects any mask outside
[0, 4096). -/
theorem C5_mask_bits_roundtrip :
    (∀ bits : List ℕ, bits.length = 12 → ValidBits bits →
      ∃ m : ℕ, bits_to_mask bits = .ok m ∧ m < 4096 ∧
        mask_to_bits (m : ℤ) = .ok bits) ∧
    (∀ m : ℤ, 0 ≤ m → m < 4096 →
      ∃ bits : List ℕ, mask_to_bits m = .ok bits ∧
        bits_to_mask bits = .ok m.toNat) ∧
    (∀ m : ℤ, m < 0 ∨ 4096 ≤ m → mask_to_bits m = .error .badMask) := by
  refine ⟨?_, ?_, ?_⟩
  · intro bits hlen hv
    refine ⟨bitsVal bits, bits_to_mask_ok bits hlen hv, ?_, ?_⟩
    · have := bitsVal_lt bits
      rw [hlen] at this
      norm_num at this
      exact this
    · have hm : bitsVal bits < 4096 := by
        have := bitsVal_lt bits; rw [hlen] at this; norm_num at this; exact this
      rw [mask_to_bits, if_neg]
      · congr 1
        apply List.ext_getElem
        · simp [hlen, CHROMA_LEN]
        · intro i hi _
          simp only [List.getElem_map, List.getElem_range, Int.toNat_natCast]
          rw [bitsVal_shiftRight bits hv i]
          have hi' : i < bits.length := by
            simp [CHROMA_LEN] at hi; omega
          exact List.getD_eq_getElem bits 0 hi'
      · push_neg
        constructor
        · exact_mod_cast Nat.zero_le _
        · show (bitsVal bits : ℤ) < 2 ^ CHROMA_LEN
          have : (bitsVal bits : ℤ) < 4096 := by exact_mod_cast hm
          simpa [CHROMA_LEN] using this
  · intro m hm0 hm
    refine ⟨(List.range CHROMA_LEN).map (fun i => (m.toNat >>> i) &&& 1), ?_, ?_⟩
    · rw [mask_to_bits, if_neg]
      push_neg
      exact ⟨not_lt.1 (by omega), by simp [CHROMA_LEN]; omega⟩
    · rw [bits_to_mask_ok _ (by simp [CHROMA_LEN]) (valid_mask_bits m.toNat)]
      rw [show (List.range CHROMA_LEN) = List.range 12 from rfl, bitsVal_of_mask]
      have hlt : m.toNat < 4096 := by omega
      rw [Nat.mod_eq_of_lt (by norm_num; omega)]
  · intro m hm
    rw [mask_to_bits, if_pos]
    rcases hm with h | h
    · exact Or.inl h
    · exact Or.inr (by simpa [CHROMA_LEN] using h)

theorem C5_mask_bits_roundtrip_witness :
    ([1,0,0,0,1,0,0,1,0,0,0,0] : List ℕ).length = 12 ∧
    ValidBits [1,0,0,0,1,0,0,1,0,0,0,0] ∧
    (∃ m : ℕ, bits_to_mask [1,0,0,0,1,0,0,1,0,0,0,0] = .ok m ∧ m < 4096 ∧
      mask_to_bits (m : ℤ) = .ok [1,0,0,0,1,0,0,1,0,0,0,0]) ∧
    (0:ℤ) ≤ 145 ∧ (145:ℤ) < 4096 ∧
    (∃ bits : List ℕ, mask_to_bits 145 = .ok bits ∧
      bits_to_mask bits = .ok (145:ℤ).toNat) ∧
    ((4096:ℤ) < 0 ∨ (4096:ℤ) ≤ 4096) ∧
    mask_to_bits 4096 = .error .badMask :=
  ⟨by decide, by decide,
   C5_mask_bits_roundtrip.1 _ (by decide) (by decide),
   by decide, by decide,
   C5_mask_bits_roundtrip.2.1 145 (by decide) (by decide),
   by decide,
   C5_mask_bits_roundtrip.2.2 4096 (by decide)⟩

/-!
### Exact scalars: the real quadratic field ℚ(√3)

Every entry of the 12-point DFT basis `exp(-2πi·k·n/12)` has real and
imaginary parts in `{0, ±1/2, ±1, ±√3/2}`, so all TIS arithmetic of the
sources lives in the field ℚ(√3) (for real parts) and its complexification.
Floating-point arithmetic of the sources is idealised as exact arithmetic.
-/

/-- An element `a + b·√3` of ℚ(√3). -/
structure Ksq where
  a : ℚ
  b : ℚ
deriving DecidableEq

namespace Ksq

@[ext] theorem extQ' {x y : Ksq} (ha : x.a = y.a) (hb : x.b = y.b) : x = y := by
  cases x; cases y; simp_all

instance : Zero Ksq := ⟨⟨0, 0⟩⟩
instance : One Ksq := ⟨⟨1, 0⟩⟩
instance : Add Ksq := ⟨fun x y => ⟨x.a + y.a, x.b + y.b⟩⟩
instance : Neg Ksq := ⟨fun x => ⟨-x.a, -x.b⟩⟩
instance : Sub Ksq := ⟨fun x y => ⟨x.a - y.a, x.b - y.b⟩⟩
instance : Mul Ksq := ⟨fun x y => ⟨x.a * y.a + 3 * x.b * y.b, x.a * y.b + x.b * y.a⟩⟩

@[simp] theorem zero_a : (0 : Ksq).a = 0 := rfl
@[simp] theorem zero_b : (0 : Ksq).b = 0 := rfl
@[simp] theorem one_a : (1 : Ksq).a = 1 := rfl
@[simp] theorem one_b : (1 : Ksq).b = 0 := rfl
@[simp] theorem add_a (x y : Ksq) : (x + y).a = x.a + y.a := rfl
@[simp] theorem add_b (x y : Ksq) : (x + y).b = x.b + y.b := rfl
@[simp] theorem neg_a (x : Ksq) : (-x).a = -x.a := rfl
@[simp] theorem neg_b (x : Ksq) : (-x).b = -x.b := rfl
@[simp] theorem sub_a (x y : Ksq) : (x - y).a = x.a - y.a := rfl
@[simp] theorem sub_b (x y : Ksq) : (x - y).b = x.b - y.b := rfl
@[simp] theorem mul_a (x y : Ksq) : (x * y).a = x.a * y.a + 3 * x.b * y.b := rfl
@[simp] theorem mul_b (x y : Ksq) : (x * y).b = x.a * y.b + x.b * y.a := rfl

instance : CommRing Ksq where
  add_assoc x y z := by ext <;> simp <;> ring
  zero_add x := by ext <;> simp
  add_zero x := by ext <;> simp
  add_comm x y := by ext <;> simp <;> ring
  mul_assoc x y z := by ext <;> simp <;> ring
  one_mul x := by ext <;> simp
  mul_one x := by ext <;> simp
  left_distrib x y z := by ext <;> simp <;> ring
  right_distrib x y z := by ext <;> simp <;> ring
  mul_comm x y := by ext <;> simp <;> ring
  zero_mul x := by ext <;> simp
  mul_zero x := by ext <;> simp
  neg_add_cancel x := by ext <;> simp
  sub_eq_add_neg x y := by ext <;> simp <;> ring
  nsmul := nsmulRec
  zsmul := zsmulRec

/-- The embedding of ℚ(√3) into ℝ. -/
noncomputable def toReal (x : Ksq) : ℝ := (x.a : ℝ) + (x.b : ℝ) * Real.sqrt 3

theorem sqrt3_sq : Real.sqrt 3 * Real.sqrt 3 = 3 :=
  Real.mul_self_sqrt (by norm_num)

theorem sqrt3_pos : 0 < Real.sqrt 3 := Real.sqrt_pos.2 (by norm_num)

theorem sqrt3_irrational : Irrational (Real.sqrt 3) := by
  simpa using (Nat.prime_three.irrational_sqrt)

@[simp] theorem toReal_zero : toReal 0 = 0 := by simp [toReal]

@[simp] theorem toReal_one : toReal 1 = 1 := by simp [toReal]

@[simp] theorem toReal_add (x y : Ksq) : toReal (x + y) = toReal x + toReal y := by
  simp [toReal]; ring

@[simp] theorem toReal_neg (x : Ksq) : toReal (-x) = -toReal x := by
  simp [toReal]; ring

@[simp] theorem toReal_sub (x y : Ksq) : toReal (x - y) = toReal x - toReal y := by
  simp [toReal]; ring

@[simp] theorem toReal_mul (x y : Ksq) : toReal (x * y) = toReal x * toReal y := by
  simp only [toReal, mul_a, mul_b]
  push_cast
  linear_combination (-(x.b : ℝ) * (y.b : ℝ)) * sqrt3_sq

theorem toReal_eq_zero {x : Ksq} : toReal x = 0 ↔ x = 0 := by
  constructor
  · intro h
    by_cases hb : x.b = 0
    · have : (x.a : ℝ) = 0 := by simpa [toReal, hb] using h
      ext <;> simp [hb]
      exact_mod_cast this
    · exfalso
      have h' : (x.a : ℝ) + (x.b : ℝ) * Real.sqrt 3 = 0 := h
      have hb' : (x.b : ℝ) ≠ 0 := by exact_mod_cast hb
      have hs : Real.sqrt 3 = ((-x.a / x.b : ℚ) : ℝ) := by
        push_cast
        field_simp
        linear_combination h'
      exact sqrt3_irrational ⟨(-x.a / x.b : ℚ), hs.symm⟩
  · rintro rfl; simp

theorem toReal_sq_nonneg (x : Ksq) : 0 ≤ toReal (x * x) := by
  rw [toReal_mul]; exact mul_self_nonneg _

end Ksq

/-- Complex numbers with real and imaginary parts in ℚ(√3): the exact home of
all TIS vectors computed by `tis_index.py`. -/
structure KC where
  re : Ksq
  im : Ksq
deriving DecidableEq

namespace KC

@[ext] theorem extC' {x y : KC} (hre : x.re = y.re) (him : x.im = y.im) : x = y := by
  cases x; cases y; simp_all

instance : Zero KC := ⟨⟨0, 0⟩⟩
instance : One KC := ⟨⟨1, 0⟩⟩
instance : Add KC := ⟨fun x y => ⟨x.re + y.re, x.im + y.im⟩⟩
instance : Neg KC := ⟨fun x => ⟨-x.re, -x.im⟩⟩
instance : Sub KC := ⟨fun x y => ⟨x.re - y.re, x.im - y.im⟩⟩
instance : Mul KC := ⟨fun x y => ⟨x.re * y.re - x.im * y.im, x.re * y.im + x.im * y.re⟩⟩

@[simp] theorem zero_re : (0 : KC).re = 0 := rfl
@[simp] theorem zero_im : (0 : KC).im = 0 := rfl
@[simp] theorem one_re : (1 : KC).re = 1 := rfl
@[simp] theorem one_im : (1 : KC).im = 0 := rfl
@[simp] theorem add_re (x y : KC) : (x + y).re = x.re + y.re := rfl
@[simp] theorem add_im (x y : KC) : (x + y).im = x.im + y.im := rfl
@[simp] theorem neg_re (x : KC) : (-x).re = -x.re := rfl
@[simp] theorem neg_im (x : KC) : (-x).im = -x.im := rfl
@[simp] theorem sub_re (x y : KC) : (x - y).re = x.re - y.re := rfl
@[simp] theorem sub_im (x y : KC) : (x - y).im = x.im - y.im := rfl
@[simp] theorem mul_re (x y : KC) : (x * y).re = x.re * y.re - x.im * y.im := rfl
@[simp] theorem mul_im (x y : KC) : (x * y).im = x.re * y.im + x.im * y.re := rfl

noncomputable instance : CommRing KC where
  add_assoc x y z := by ext <;> simp <;> ring
  zero_add x := by ext <;> simp
  add_zero x := by ext <;> simp
  add_comm x y := by ext <;> simp <;> ring
  mul_assoc x y z := by ext <;> simp <;> ring
  one_mul x := by ext <;> simp
  mul_one x := by ext <;> simp
  left_distrib x y z := by ext <;> simp <;> ring
  right_distrib x y z := by ext <;> simp <;> ring
  mul_comm x y := by ext <;> simp <;> ring
  zero_mul x := by ext <;> simp
  mul_zero x := by ext <;> simp
  neg_add_cancel x := by ext <;> simp
  sub_eq_add_neg x y := by ext <;> simp <;> ring
  nsmul := nsmulRec
  zsmul := zsmulRec

/-- Complex conjugate (the `np.conj` of `tis_index.dot`). -/
def conj (x : KC) : KC := ⟨x.re, -x.im⟩

/-- The squared modulus `|z|²`, a real element of ℚ(√3). -/
def normSq (x : KC) : Ksq := x.re * x.re + x.im * x.im

theorem normSq_neg_sub (x y : KC) : normSq (x - y) = normSq (y - x) := by
  simp only [normSq]
  ext <;> simp <;> ring

theorem toReal_normSq_nonneg (x : KC) : 0 ≤ Ksq.toReal (normSq x) := by
  rw [normSq, Ksq.toReal_add]
  have := Ksq.toReal_sq_nonneg x.re
  have := Ksq.toReal_sq_nonneg x.im
  linarith

theorem toReal_normSq_pos {x : KC} (hx : x ≠ 0) : 0 < Ksq.toReal (normSq x) := by
  rcases lt_or_eq_of_le (toReal_normSq_nonneg x) with h | h
  · exact h
  · exfalso
    have hre := Ksq.toReal_sq_nonneg x.re
    have him := Ksq.toReal_sq_nonneg x.im
    have hsum : Ksq.toReal (x.re * x.re) + Ksq.toReal (x.im * x.im) = 0 := by
      rw [← Ksq.toReal_add]; exact h.symm
    have h1 : Ksq.toReal (x.re * x.re) = 0 := by linarith
    have h2 : Ksq.toReal (x.im * x.im) = 0 := by linarith
    rw [Ksq.toReal_mul] at h1 h2
    have hre0 : Ksq.toReal x.re = 0 := by nlinarith
    have him0 : Ksq.toReal x.im = 0 := by nlinarith
    apply hx
    ext1
    · exact Ksq.toReal_eq_zero.1 hre0
    · exact Ksq.toReal_eq_zero.1 him0

/-- Scale by a rational number. -/
def qsmul (q : ℚ) (x : KC) : KC := ⟨⟨q, 0⟩ * x.re, ⟨q, 0⟩ * x.im⟩

/-- Embed a rational number. -/
def ofQ (q : ℚ) : KC := ⟨⟨q, 0⟩, 0⟩

@[simp] theorem ofQ_mul_eq_qsmul (q : ℚ) (x : KC) : ofQ q * x = qsmul q x := by
  simp only [ofQ, qsmul]
  ext <;> simp <;> ring

end KC

/-!
### The TIS transform (`tis_index.py`)

`_tis_exponent_matrix` builds the (6,12) matrix `exp(-2πi·k·n/12)` for
k = 1..6, n = 0..11.  `exp(-iθ) = cos θ - i·sin θ` and the angle only matters
mod 2π, so entry (k,n) is the 12th root of unity at index `k·n mod 12`,
conjugated.  The cosine/sine values at multiples of 2π/12 are the exact
ℚ(√3) constants tabulated below.
-/

/-- cos(2π·m/12) as an exact element of ℚ(√3). -/
def cosTab (m : ℕ) : Ksq :=
  match m % 12 with
  | 0 => ⟨1, 0⟩
  | 1 => ⟨0, 1/2⟩
  | 2 => ⟨1/2, 0⟩
  | 3 => ⟨0, 0⟩
  | 4 => ⟨-(1/2), 0⟩
  | 5 => ⟨0, -(1/2)⟩
  | 6 => ⟨-1, 0⟩
  | 7 => ⟨0, -(1/2)⟩
  | 8 => ⟨-(1/2), 0⟩
  | 9 => ⟨0, 0⟩
  | 10 => ⟨1/2, 0⟩
  | _ => ⟨0, 1/2⟩

/-- sin(2π·m/12) as an exact element of ℚ(√3). -/
def sinTab (m : ℕ) : Ksq :=
  match m % 12 with
  | 0 => ⟨0, 0⟩
  | 1 => ⟨1/2, 0⟩
  | 2 => ⟨0, 1/2⟩
  | 3 => ⟨1, 0⟩
  | 4 => ⟨0, 1/2⟩
  | 5 => ⟨1/2, 0⟩
  | 6 => ⟨0, 0⟩
  | 7 => ⟨-(1/2), 0⟩
  | 8 => ⟨0, -(1/2)⟩
  | 9 => ⟨-1, 0⟩
  | 10 => ⟨0, -(1/2)⟩
  | _ => ⟨-(1/2), 0⟩

/-- Entry (k,n) of `_E12`: `exp(-2πi·k·n/12) = cos(2π·kn/12) - i·sin(2π·kn/12)`. -/
def e12 (k n : ℕ) : KC := ⟨cosTab (k * n), -(sinTab (k * n))⟩

/-- `TIS_DIM` from `tis_index.py`. -/
def TIS_DIM : ℕ := 6

/-- `DEFAULT_WEIGHTS` from `tis_index.py`: `(2, 11, 17, 16, 19, 7)`. -/
def DEFAULT_WEIGHTS : Fin 6 → ℚ := ![2, 11, 17, 16, 19, 7]

/-- Component k (0-based; the paper's k+1) of `chroma_bar @ _E12.T` for one
row whose normalized distribution is `xbar`. -/
def dftRow (xbar : ℕ → ℚ) (k : Fin 6) : KC :=
  ((List.range 12).map (fun n => KC.qsmul (xbar n) (e12 (k.val + 1) n))).sum

/-- One output row of `chroma_matrix_to_tis`: the DFT row of the normalized
chroma, multiplied component-wise by the weights afterwards (exactly the
source's `tis = chroma_bar @ _E12.T; tis = tis * weights[None, :]`). -/
def tisRowOf (r : List ℚ) (w : Fin 6 → ℚ) (k : Fin 6) : KC :=
  dftRow (fun n => r.getD n 0 / r.sum) k * KC.ofQ (w k)

/-- Embedding of `tis_index.chroma_matrix_to_tis`: shape check, zero-row
check, then the weighted DFT of each normalized row. -/
def chroma_matrix_to_tis (rows : List (List ℚ)) (w : Fin 6 → ℚ) :
    Except ChromaErr (List (Fin 6 → KC)) :=
  if rows.any (fun r => decide (r.length ≠ 12)) then .error .badShape
  else if rows.any (fun r => decide (r.sum = 0)) then .error .emptyChroma
  else .ok (rows.map (fun r => tisRowOf r w))

/-- The TIS formula exactly as the specification writes it:
`T_k = w_k · Σ_{n=0..11} x̄_n · exp(−2πi·k·n/12)`. -/
def specTisRow (r : List ℚ) (w : Fin 6 → ℚ) (k : Fin 6) : KC :=
  KC.ofQ (w k) *
    ((List.range 12).map
      (fun n => KC.qsmul (r.getD n 0 / r.sum) (e12 (k.val + 1) n))).sum

/-- `chroma_bits_to_tis` (single chord, default weights), as the total
function it is on valid input. -/
def tisOfBits (bits : List ℕ) : Fin 6 → KC :=
  tisRowOf (bits.map (fun b : ℕ => (b : ℚ))) DEFAULT_WEIGHTS

theorem sum01_eq_zero_iff (r : List ℚ) (h : ∀ x ∈ r, x = 0 ∨ x = 1) :
    r.sum = 0 ↔ ∀ x ∈ r, x = 0 := by
  induction r with
  | nil => simp
  | cons x xs ih =>
    have hx : x = 0 ∨ x = 1 := h x (List.mem_cons_self x xs)
    have hxs : ∀ y ∈ xs, y = 0 ∨ y = 1 := fun y hy => h y (List.mem_cons_of_mem x hy)
    have hnn : 0 ≤ xs.sum := by
      apply List.sum_nonneg
      intro y hy
      rcases hxs y hy with h | h <;> simp [h]
    have hxnn : 0 ≤ x := by
      rcases hx with h | h <;> simp [h]
    rw [List.sum_cons]
    constructor
    · intro hsum
      have hx0 : x = 0 := by linarith
      have hs0 : xs.sum = 0 := by linarith
      intro y hy
      rcases List.mem_cons.1 hy with rfl | hy'
      · exact hx0
      · exact (ih hxs).1 hs0 y hy'
    · intro hall
      have hx0 : x = 0 := hall x (List.mem_cons_self x xs)
      have hs0 : xs.sum = 0 := (ih hxs).2 (fun y hy => hall y (List.mem_cons_of_mem x hy))
      rw [hx0, hs0, add_zero]

theorem tisRowOf_eq_spec (r : List ℚ) (w : Fin 6 → ℚ) (k : Fin 6) :
    tisRowOf r w k = specTisRow r w k := by
  rw [tisRowOf, specTisRow, dftRow, mul_comm]

/-- C3: on every (N,12) matrix of 0/1 entries, `chroma_matrix_to_tis` with
the default weights `(2, 11, 17, 16, 19, 7)` raises `InvalidChroma`
(`ChromaInputError`) iff some row is all zeros, and otherwise returns, for
each row, exactly the spec formula
`T_k = w_k · Σ_{n=0..11} x̄_n · exp(−2πi·k·n/12)`, k = 1..6. -/
theorem C3_tis_formula (rows : List (List ℚ))
    (hlen : ∀ r ∈ rows, r.length = 12)
    (h01 : ∀ r ∈ rows, ∀ x ∈ r, x = 0 ∨ x = 1) :
    DEFAULT_WEIGHTS = ![2, 11, 17, 16, 19, 7] ∧
    ((∃ e, chroma_matrix_to_tis rows DEFAULT_WEIGHTS = .error e) ↔
      ∃ r ∈ rows, ∀ x ∈ r, x = 0) ∧
    ((∀ r ∈ rows, ∃ x ∈ r, x ≠ 0) →
      chroma_matrix_to_tis rows DEFAULT_WEIGHTS =
        .ok (rows.map (fun r => fun k => specTisRow r DEFAULT_WEIGHTS k))) := by
  have hshape : rows.any (fun r => decide (r.length ≠ 12)) = false := by
    rw [List.any_eq_false]
    intro r hr
    simp [hlen r hr]
  refine ⟨rfl, ?_, ?_⟩
  · constructor
    · rintro ⟨e, he⟩
      rw [chroma_matrix_to_tis, hshape] at he
      simp only [Bool.false_eq_true, if_false] at he
      by_cases hz : rows.any (fun r => decide (r.sum = 0)) = true
      · rcases List.any_eq_true.1 hz with ⟨r, hr, hrz⟩
        exact ⟨r, hr, (sum01_eq_zero_iff r (h01 r hr)).1 (of_decide_eq_true hrz)⟩
      · rw [Bool.not_eq_true] at hz
        rw [hz] at he
        simp at he
    · rintro ⟨r, hr, hrz⟩
      have hz : rows.any (fun r => decide (r.sum = 0)) = true :=
        List.any_eq_true.2 ⟨r, hr, decide_eq_true ((sum01_eq_zero_iff r (h01 r hr)).2 hrz)⟩
      refine ⟨.emptyChroma, ?_⟩
      rw [chroma_matrix_to_tis, hshape, hz]
      simp
  · intro hnz
    have hz : rows.any (fun r => decide (r.sum = 0)) = false := by
      rw [List.any_eq_false]
      intro r hr
      simp only [decide_eq_true_eq]
      intro hsum
      rcases hnz r hr with ⟨x, hx, hxne⟩
      exact hxne (((sum01_eq_zero_iff r (h01 r hr)).1 hsum) x hx)
    rw [chroma_matrix_to_tis, hshape, hz]
    simp only [Bool.false_eq_true, if_false]
    congr 1
    apply List.map_congr_left
    intro r _
    funext k
    exact tisRowOf_eq_spec r DEFAULT_WEIGHTS k

theorem C3_tis_formula_witness :
    (∀ r ∈ [[(1:ℚ),0,0,0,1,0,0,1,0,0,0,0], [0,0,1,0,0,0,0,0,0,0,0,0]],
      r.length = 12) ∧
    (∀ r ∈ [[(1:ℚ),0,0,0,1,0,0,1,0,0,0,0], [0,0,1,0,0,0,0,0,0,0,0,0]],
      ∀ x ∈ r, x = 0 ∨ x = 1) ∧
    (DEFAULT_WEIGHTS = ![2, 11, 17, 16, 19, 7] ∧
      ((∃ e, chroma_matrix_to_tis
          [[(1:ℚ),0,0,0,1,0,0,1,0,0,0,0], [0,0,1,0,0,0,0,0,0,0,0,0]]
          DEFAULT_WEIGHTS = .error e) ↔
        ∃ r ∈ [[(1:ℚ),0,0,0,1,0,0,1,0,0,0,0], [0,0,1,0,0,0,0,0,0,0,0,0]],
          ∀ x ∈ r, x = 0) ∧
      ((∀ r ∈ [[(1:ℚ),0,0,0,1,0,0,1,0,0,0,0], [0,0,1,0,0,0,0,0,0,0,0,0]],
          ∃ x ∈ r, x ≠ 0) →
        chroma_matrix_to_tis
          [[(1:ℚ),0,0,0,1,0,0,1,0,0,0,0], [0,0,1,0,0,0,0,0,0,0,0,0]]
          DEFAULT_WEIGHTS =
          .ok ([[(1:ℚ),0,0,0,1,0,0,1,0,0,0,0], [0,0,1,0,0,0,0,0,0,0,0,0]].map
            (fun r => fun k => specTisRow r DEFAULT_WEIGHTS k)))) :=
  ⟨by decide, by decide, C3_tis_formula _ (by decide) (by decide)⟩

/-- C10: `bits_to_mask` accepts the all-zero 12-bit vector, returning mask 0
without error; the non-empty-chroma requirement is enforced by
`chroma_matrix_to_tis`, which errors whenever some (length-12) row sums to
zero. -/
theorem C10_zero_chroma (rows : List (List ℚ)) (hlen : ∀ r ∈ rows, r.length = 12)
    (hz : ∃ r ∈ rows, ∀ x ∈ r, x = 0) :
    bits_to_mask (List.replicate 12 0) = .ok 0 ∧
    ∀ w : Fin 6 → ℚ, chroma_matrix_to_tis rows w = .error .emptyChroma := by
  constructor
  · rfl
  · intro w
    have hshape : rows.any (fun r => decide (r.length ≠ 12)) = false := by
      rw [List.any_eq_false]
      intro r hr
      simp [hlen r hr]
    rcases hz with ⟨r, hr, hrz⟩
    have hsum : r.sum = 0 := List.sum_eq_zero hrz
    have hz' : rows.any (fun r => decide (r.sum = 0)) = true :=
      List.any_eq_true.2 ⟨r, hr, decide_eq_true hsum⟩
    rw [chroma_matrix_to_tis, hshape, hz']
    simp

theorem C10_zero_chroma_witness :
    (∀ r ∈ [List.replicate 12 (0:ℚ)], r.length = 12) ∧
    (∃ r ∈ [List.replicate 12 (0:ℚ)], ∀ x ∈ r, x = 0) ∧
    (bits_to_mask (List.replicate 12 0) = .ok 0 ∧
      ∀ w : Fin 6 → ℚ,
        chroma_matrix_to_tis [List.replicate 12 (0:ℚ)] w = .error .emptyChroma) :=
  ⟨by decide, by decide, C10_zero_chroma _ (by decide) (by decide)⟩

/-!
### Ranking (`tonal_tension/model.py`, `suggest_next_chords` lines 71-84)

`compute_tension` returns a finite float array; `suggest_next_chords` then
overwrites exactly the previous chord's row with NaN
(`tension[prev_row] = np.nan`), so the masked array is modelled as
`Option ℚ` entries with `none` = NaN.  `np.where(np.isnan(k), np.inf, k)`
sends a key to `WithTop ℚ` with `none ↦ ⊤`, and `np.argsort` sorts the row
indices by that key.  Python's `float(goal)` is passed in as the parameter
`parsed` (`none` when `float(goal)` raised `ValueError`).
-/

/-- `tension[prev_row] = np.nan`: entry i of the masked array is NaN at the
previous row and the original (finite) tension value elsewhere. -/
def maskPrev (tension : List ℚ) (prev : ℕ) : List (Option ℚ) :=
  (List.range tension.length).map
    (fun i => if i = prev then none else some (tension.getD i 0))

/-- The sort key chosen by the goal: `|tension - target|` when the goal
parses as a float, `-tension` for `"build"`, and `tension` itself otherwise
(every unrecognized goal shares the `"resolve"` branch).  NaN is absorbing in
each arithmetic branch, as in numpy. -/
def sortKeyFor (parsed : Option ℚ) (goal : String) (tension : List (Option ℚ)) :
    List (Option ℚ) :=
  match parsed with
  | some target => tension.map (fun x => x.map (fun v => |v - target|))
  | none =>
    if goal = "build" then tension.map (fun x => x.map (fun v => -v)) else tension

/-- `np.where(np.isnan(sort_key), np.inf, sort_key)`. -/
def nanToInf (x : Option ℚ) : WithTop ℚ :=
  match x with
  | none => ⊤
  | some v => (v : WithTop ℚ)

/-- `np.argsort(keys)`: the row indices `0..len-1` sorted by their key. -/
def argsortKeys (keys : List (WithTop ℚ)) : List ℕ :=
  (List.range keys.length).insertionSort (fun i j => keys.getD i ⊤ ≤ keys.getD j ⊤)

/-- The ranking core of `suggest_next_chords`: mask the previous row, build
the goal's sort key, argsort treating NaN as +∞, and keep the first `top`
row indices (`order[:top]`). -/
def suggestRankedRows (tension : List ℚ) (prev : ℕ) (parsed : Option ℚ)
    (goal : String) (top : ℕ) : List ℕ :=
  (argsortKeys ((sortKeyFor parsed goal (maskPrev tension prev)).map nanToInf)).take top

theorem sortKeyFor_length (parsed : Option ℚ) (goal : String)
    (t : List (Option ℚ)) : (sortKeyFor parsed goal t).length = t.length := by
  rcases parsed with _ | target <;> simp [sortKeyFor]
  split <;> simp

theorem sortKeyFor_isNone (parsed : Option ℚ) (goal : String)
    (t : List (Option ℚ)) (i : ℕ) (hi : i < t.length) :
    ((sortKeyFor parsed goal t).getD i none).isNone = (t.getD i none).isNone := by
  have hi' : i < (sortKeyFor parsed goal t).length := by
    rw [sortKeyFor_length]; exact hi
  rcases parsed with _ | target
  · by_cases hb : goal = "build"
    · simp only [sortKeyFor, if_pos hb]
      rw [List.getD_eq_getElem _ _ (by simpa using hi), List.getD_eq_getElem _ _ hi,
        List.getElem_map]
      rcases t[i] with _ | v <;> simp
    · simp [sortKeyFor, hb]
  · simp only [sortKeyFor]
    rw [List.getD_eq_getElem _ _ (by simpa using hi), List.getD_eq_getElem _ _ hi,
      List.getElem_map]
    rcases t[i] with _ | v <;> simp

theorem maskPrev_length (tension : List ℚ) (prev : ℕ) :
    (maskPrev tension prev).length = tension.length := by
  simp [maskPrev]

theorem maskPrev_isNone (tension : List ℚ) (prev i : ℕ) (hi : i < tension.length) :
    ((maskPrev tension prev).getD i none).isNone = true ↔ i = prev := by
  have hi' : i < (maskPrev tension prev).length := by rw [maskPrev_length]; exact hi
  rw [List.getD_eq_getElem _ _ hi']
  simp only [maskPrev, List.getElem_map, List.getElem_range]
  by_cases h : i = prev <;> simp [h]

/-- Helper: in the masked-and-keyed list, an index below `M` has key ⊤ iff it
is the previous row. -/
theorem key_top_iff (tension : List ℚ) (prev : ℕ) (parsed : Option ℚ)
    (goal : String) (i : ℕ) (hi : i < tension.length) :
    (((sortKeyFor parsed goal (maskPrev tension prev)).map nanToInf).getD i ⊤ = ⊤)
      ↔ i = prev := by
  set sk := sortKeyFor parsed goal (maskPrev tension prev) with hsk
  have hlen : sk.length = tension.length := by
    rw [hsk, sortKeyFor_length, maskPrev_length]
  have hi' : i < sk.length := by rw [hlen]; exact hi
  have hi'' : i < (sk.map nanToInf).length := by simpa using hi'
  rw [List.getD_eq_getElem _ _ hi'', List.getElem_map]
  have hnone : (sk.getD i none).isNone = ((maskPrev tension prev).getD i none).isNone := by
    rw [hsk]
    exact sortKeyFor_isNone parsed goal _ i (by rw [maskPrev_length]; exact hi)
  rw [List.getD_eq_getElem _ _ hi'] at hnone
  constructor
  · intro htop
    have : sk[i].isNone = true := by
      rcases h : sk[i] with _ | v
      · rfl
      · rw [h] at htop
        exact absurd htop (by simp [nanToInf])
    rw [this] at hnone
    exact (maskPrev_isNone tension prev i hi).1 hnone.symm
  · intro hp
    have hmn : ((maskPrev tension prev).getD i none).isNone = true :=
      (maskPrev_isNone tension prev i hi).2 hp
    have : sk[i].isNone = true := by rw [hnone]; exact hmn
    rcases h : sk[i] with _ | v
    · rfl
    · rw [h] at this; simp at this

/-- C1 (amended): for every tension array, previous row, goal, and
`top < M` (the number of index rows), the previous chord's row does not
appear among the returned rows: its key is NaN, NaN sorts as +∞, and only
`top ≥ M` can reach the last position.  (The original claim also allowed
`top ≥ M`, where the row does appear; see the counterexample.) -/
theorem C1_prev_excluded (tension : List ℚ) (prev : ℕ) (parsed : Option ℚ)
    (goal : String) (top : ℕ) (hprev : prev < tension.length)
    (htop : top < tension.length) :
    prev ∉ suggestRankedRows tension prev parsed goal top := by
  intro hmem
  set keys := (sortKeyFor parsed goal (maskPrev tension prev)).map nanToInf with hkeys
  have hklen : keys.length = tension.length := by
    rw [hkeys]; simp [sortKeyFor_length, maskPrev_length]
  set L := List.insertionSort
    (fun i j => keys.getD i ⊤ ≤ keys.getD j ⊤) (List.range keys.length) with hL
  have hperm : List.Perm L (List.range keys.length) := List.perm_insertionSort _ _
  have hLlen : L.length = tension.length := by
    rw [hperm.length_eq, List.length_range, hklen]
  have hLmemlt : ∀ j ∈ L, j < tension.length := by
    intro j hj
    have := hperm.mem_iff.1 hj
    rw [List.mem_range, hklen] at this
    exact this
  have hnodup : L.Nodup := hperm.nodup_iff.2 (List.nodup_range _)
  letI : IsTotal ℕ (fun i j => keys.getD i ⊤ ≤ keys.getD j ⊤) :=
    ⟨fun i j => le_total _ _⟩
  letI : IsTrans ℕ (fun i j => keys.getD i ⊤ ≤ keys.getD j ⊤) :=
    ⟨fun i j k hij hjk => le_trans hij hjk⟩
  have hsorted : L.Sorted (fun i j => keys.getD i ⊤ ≤ keys.getD j ⊤) :=
    List.sorted_insertionSort _ _
  -- prev sits at some position idx < top in L
  have hmem' : prev ∈ (L.take top) := by
    rw [suggestRankedRows] at hmem
    exact hmem
  rcases List.getElem_of_mem hmem' with ⟨idx, hidx, hidxval⟩
  have hidxlen : idx < L.length := lt_of_lt_of_le hidx (by simp [List.length_take])
  have hidxtop : idx < top := lt_of_lt_of_le hidx (by simp [List.length_take])
  rw [List.getElem_take] at hidxval
  -- the last position of L
  have hMpos : 0 < L.length := by rw [hLlen]; omega
  have hlast : L.length - 1 < L.length := by omega
  have hidxne : idx < L.length - 1 := by rw [hLlen]; omega
  have hrel : keys.getD (L[idx]) ⊤ ≤ keys.getD (L[L.length - 1]) ⊤ := by
    have := List.pairwise_iff_getElem.1 hsorted idx (L.length - 1) hidxlen hlast hidxne
    exact this
  rw [hidxval] at hrel
  have hprevtop : keys.getD prev ⊤ = ⊤ :=
    (key_top_iff tension prev parsed goal prev hprev).2 rfl
  rw [hprevtop, top_le_iff] at hrel
  have hlastmem : L[L.length - 1] ∈ L := List.getElem_mem _
  have hlastlt : L[L.length - 1] < tension.length := hLmemlt _ hlastmem
  have hlastprev : L[L.length - 1] = prev :=
    (key_top_iff tension prev parsed goal _ hlastlt).1 hrel
  have : idx = L.length - 1 := by
    have heq : L[idx] = L[L.length - 1] := by
      rw [hidxval, hlastprev]
    exact (List.Nodup.getElem_inj_iff hnodup).1 heq
  omega

theorem C1_prev_excluded_witness :
    0 < ([0, 1, 2] : List ℚ).length ∧ 2 < ([0, 1, 2] : List ℚ).length ∧
    0 ∉ suggestRankedRows [0, 1, 2] 0 none "resolve" 2 :=
  ⟨by decide, by decide, C1_prev_excluded [0, 1, 2] 0 none "resolve" 2
    (by decide) (by decide)⟩

/-- C1 counterexample: with two index rows, `prev_row = 0`, goal "resolve"
and `top = 2 ≥ M`, the previous chord's row IS among the returned rows
(`order[:top]` keeps all `M` sorted rows, and the NaN key only pushes the
previous row to the last rank). -/
theorem C1_counterexample :
    0 ∈ suggestRankedRows [0, 1] 0 none "resolve" 2 := by decide

/-- C9: every goal string that neither parses as a float
(`float(goal)` raises, modelled by `parsed = none`) nor equals `"build"` is
ranked exactly like `"resolve"`, with no error: the embedded ranking is a
total function and the goal only selects the sort key. -/
theorem C9_unknown_goal (tension : List ℚ) (prev : ℕ) (goal : String)
    (top : ℕ) (hb : goal ≠ "build") :
    suggestRankedRows tension prev none goal top =
      suggestRankedRows tension prev none "resolve" top := by
  rw [suggestRankedRows, suggestRankedRows]
  have h1 : sortKeyFor none goal (maskPrev tension prev) =
      sortKeyFor none "resolve" (maskPrev tension prev) := by
    rw [sortKeyFor, sortKeyFor]
    rw [if_neg hb, if_neg (by decide)]
  rw [h1]

theorem C9_unknown_goal_witness :
    ("wander" : String) ≠ "build" ∧
    suggestRankedRows [3, 1, 2] 1 none "wander" 2 =
      suggestRankedRows [3, 1, 2] 1 none "resolve" 2 :=
  ⟨by decide, C9_unknown_goal [3, 1, 2] 1 "wander" 2 (by decide)⟩

/-!
### Weighted tension (`model.py`, `compute_tension` lines 13-32)

`compute_tension` iterates the supplied weights mapping in order.  The only
failure modes in the code are the Python `KeyError` from `features[key]` on
an unknown indicator key and the `ValueError` `np.nanmin` raises on an empty
array; the code performs no validation of weight values (negative weights
are accepted silently), and no `InvalidWeights` error exists anywhere in the
sources.
-/

/-- The Python exceptions reachable from `compute_tension`. -/
inductive TensionErr where
  | keyError (k : String)
  | emptyArray
deriving DecidableEq

/-- `np.nanmin` on a NaN-free array: `none` on the empty array (numpy
raises there). -/
def nanmin (l : List ℚ) : Option ℚ :=
  match l with
  | [] => none
  | x :: xs => some (xs.foldl min x)

/-- `np.nanmax`, as `nanmin`. -/
def nanmax (l : List ℚ) : Option ℚ :=
  match l with
  | [] => none
  | x :: xs => some (xs.foldl max x)

/-- One iteration of the `for key, w in weights.items()` loop body:
optionally min-max normalize `vals` (zeros if the span is ≤ 0) and add
`w * value` into the accumulator. -/
def tensionStep (normalize : Bool) (acc : List ℚ) (vals : List ℚ) (w : ℚ) :
    Except TensionErr (List ℚ) :=
  if normalize then
    match nanmin vals, nanmax vals with
    | some vmin, some vmax =>
      let span := vmax - vmin
      let normed := if 0 < span then vals.map (fun v => (v - vmin) / span)
        else vals.map (fun _ => 0)
      .ok (List.zipWith (fun a n => a + w * n) acc normed)
    | _, _ => .error .emptyArray
  else .ok (List.zipWith (fun a v => a + w * v) acc vals)

/-- The weights loop of `compute_tension`. -/
def tensionLoop (feats : List (String × List ℚ)) (normalize : Bool) :
    List (String × ℚ) → List ℚ → Except TensionErr (List ℚ)
  | [], acc => .ok acc
  | (k, w) :: rest, acc =>
    match feats.lookup k with
    | none => .error (.keyError k)
    | some vals =>
      match tensionStep normalize acc vals w with
      | .error e => .error e
      | .ok next => tensionLoop feats normalize rest next

/-- Embedding of `compute_tension`: start from
`np.zeros_like(features["d1"])` and run the weights loop. -/
def compute_tension (feats : List (String × List ℚ))
    (weights : List (String × ℚ)) (normalize : Bool) :
    Except TensionErr (List ℚ) :=
  match feats.lookup "d1" with
  | none => .error (.keyError "d1")
  | some d1 => tensionLoop feats normalize weights (d1.map (fun _ => 0))

theorem lookup_isSome_iff_mem_keys (feats : List (String × List ℚ)) (k : String) :
    (feats.lookup k).isSome = true ↔ k ∈ feats.map Prod.fst := by
  induction feats with
  | nil => simp [List.lookup]
  | cons p rest ih =>
    rcases p with ⟨k', v⟩
    rw [List.lookup]
    by_cases h : k = k'
    · subst h
      simp
    · have hne : (k == k') = false := beq_false_of_ne h
      rw [hne]
      simpa [h] using ih

theorem lookup_mem (feats : List (String × List ℚ)) (k : String) (v : List ℚ)
    (h : feats.lookup k = some v) : (k, v) ∈ feats := by
  induction feats with
  | nil => simp [List.lookup] at h
  | cons p rest ih =>
    rcases p with ⟨k', v'⟩
    rw [List.lookup] at h
    by_cases hk : k = k'
    · subst hk
      simp only [beq_self_eq_true] at h
      injection h with h
      subst h
      exact List.mem_cons_self _ _
    · rw [beq_false_of_ne hk] at h
      exact List.mem_cons_of_mem _ (ih h)

theorem tensionStep_ok (normalize : Bool) (acc vals : List ℚ) (w : ℚ)
    (hv : vals ≠ []) : ∃ next, tensionStep normalize acc vals w = .ok next := by
  rcases normalize with _ | _
  · exact ⟨_, rfl⟩
  · rcases vals with _ | ⟨x, xs⟩
    · exact absurd rfl hv
    · exact ⟨_, rfl⟩

theorem tensionLoop_ok (feats : List (String × List ℚ)) (normalize : Bool)
    (hne : ∀ p ∈ feats, p.2 ≠ []) :
    ∀ (weights : List (String × ℚ)) (acc : List ℚ),
      (∀ p ∈ weights, p.1 ∈ feats.map Prod.fst) →
      ∃ out, tensionLoop feats normalize weights acc = .ok out := by
  intro weights
  induction weights with
  | nil => exact fun acc _ => ⟨acc, rfl⟩
  | cons p rest ih =>
    rcases p with ⟨k, w⟩
    intro acc hall
    have hk : k ∈ feats.map Prod.fst := hall (k, w) (List.mem_cons_self _ _)
    have hsome : (feats.lookup k).isSome = true :=
      (lookup_isSome_iff_mem_keys feats k).2 hk
    rcases hlk : feats.lookup k with _ | vals
    · rw [hlk] at hsome; simp at hsome
    · have hvne : vals ≠ [] := hne (k, vals) (lookup_mem feats k vals hlk)
      rcases tensionStep_ok normalize acc vals w hvne with ⟨next, hstep⟩
      rcases ih next (fun q hq => hall q (List.mem_cons_of_mem _ hq)) with ⟨out, hout⟩
      exact ⟨out, by simp only [tensionLoop, hlk, hstep, hout]⟩

theorem tensionLoop_error (feats : List (String × List ℚ)) (normalize : Bool)
    (hne : ∀ p ∈ feats, p.2 ≠ []) :
    ∀ (weights : List (String × ℚ)) (acc : List ℚ),
      (∃ p ∈ weights, p.1 ∉ feats.map Prod.fst) →
      ∃ k, tensionLoop feats normalize weights acc = .error (.keyError k) := by
  intro weights
  induction weights with
  | nil => rintro acc ⟨p, hp, _⟩; simp at hp
  | cons p rest ih =>
    rcases p with ⟨k, w⟩
    intro acc hex
    rcases hlk : feats.lookup k with _ | vals
    · exact ⟨k, by simp only [tensionLoop, hlk]⟩
    · have hkmem : k ∈ feats.map Prod.fst :=
        (lookup_isSome_iff_mem_keys feats k).1 (by rw [hlk]; rfl)
      have hvne : vals ≠ [] := hne (k, vals) (lookup_mem feats k vals hlk)
      rcases tensionStep_ok normalize acc vals w hvne with ⟨next, hstep⟩
      have hex' : ∃ q ∈ rest, q.1 ∉ feats.map Prod.fst := by
        rcases hex with ⟨q, hq, hqn⟩
        rcases List.mem_cons.1 hq with rfl | hq'
        · exact absurd hkmem hqn
        · exact ⟨q, hq', hqn⟩
      rcases ih next hex' with ⟨k', hk'⟩
      exact ⟨k', by simp only [tensionLoop, hlk, hstep, hk']⟩

/-- C8 (amended): with the feature mapping `compute_features` produces (the
six keys d1, d2, d3, c, m, h, each a non-empty array), `compute_tension`
fails iff the weights mapping contains a key that is not one of the six —
the failure is a `KeyError`, not a dedicated `InvalidWeights` error — and
weight values are never validated: any rational weights over the six known
keys, negative ones included, raise no error.  (The original claim said a
negative weight also fails; see the counterexample.) -/
theorem C8_weights_error_iff (feats : List (String × List ℚ))
    (weights : List (String × ℚ)) (normalize : Bool)
    (hkeys : feats.map Prod.fst = ["d1", "d2", "d3", "c", "m", "h"])
    (hne : ∀ p ∈ feats, p.2 ≠ []) :
    (∃ e, compute_tension feats weights normalize = .error e) ↔
      ∃ p ∈ weights, p.1 ∉ (["d1", "d2", "d3", "c", "m", "h"] : List String) := by
  have hd1 : "d1" ∈ feats.map Prod.fst := by rw [hkeys]; simp
  have hd1some : (feats.lookup "d1").isSome = true :=
    (lookup_isSome_iff_mem_keys feats "d1").2 hd1
  rcases hld : feats.lookup "d1" with _ | d1v
  · rw [hld] at hd1some; simp at hd1some
  have hcomp : compute_tension feats weights normalize =
      tensionLoop feats normalize weights (d1v.map (fun _ => 0)) := by
    simp only [compute_tension, hld]
  constructor
  · rintro ⟨e, he⟩
    by_contra hno
    push_neg at hno
    have hall : ∀ p ∈ weights, p.1 ∈ feats.map Prod.fst := by
      intro p hp
      rw [hkeys]
      exact hno p hp
    rcases tensionLoop_ok feats normalize hne weights (d1v.map (fun _ => 0)) hall
      with ⟨out, hout⟩
    rw [hcomp, hout] at he
    exact Except.noConfusion he
  · intro hex
    have hex' : ∃ p ∈ weights, p.1 ∉ feats.map Prod.fst := by
      rcases hex with ⟨p, hp, hpn⟩
      exact ⟨p, hp, by rw [hkeys]; exact hpn⟩
    rcases tensionLoop_error feats normalize hne weights (d1v.map (fun _ => 0)) hex'
      with ⟨k, hk⟩
    exact ⟨.keyError k, by rw [hcomp, hk]⟩

theorem C8_weights_error_iff_witness :
    (([("d1", [0, 1]), ("d2", [0, 1]), ("d3", [0, 1]), ("c", [0, 1]),
       ("m", [0, 1]), ("h", [0, 1])] : List (String × List ℚ)).map Prod.fst =
      ["d1", "d2", "d3", "c", "m", "h"]) ∧
    (∀ p ∈ ([("d1", [0, 1]), ("d2", [0, 1]), ("d3", [0, 1]), ("c", [0, 1]),
       ("m", [0, 1]), ("h", [0, 1])] : List (String × List ℚ)), p.2 ≠ []) ∧
    ((∃ e, compute_tension
        [("d1", [0, 1]), ("d2", [0, 1]), ("d3", [0, 1]), ("c", [0, 1]),
         ("m", [0, 1]), ("h", [0, 1])]
        [("zz", 1)] true = .error e) ↔
      ∃ p ∈ ([("zz", (1:ℚ))] : List (String × ℚ)),
        p.1 ∉ (["d1", "d2", "d3", "c", "m", "h"] : List String)) :=
  ⟨by decide, by decide,
   C8_weights_error_iff _ [("zz", 1)] true (by decide) (by decide)⟩

/-- C8 counterexample: a weights mapping over the known keys with a negative
weight value (`{"d1": -1}`) raises no error at all — `compute_tension`
succeeds, refuting "fails ... if ... a negative weight value". -/
theorem C8_counterexample :
    compute_tension
      [("d1", [0, 1]), ("d2", [0, 1]), ("d3", [0, 1]), ("c", [0, 1]),
       ("m", [0, 1]), ("h", [0, 1])]
      [("d1", -1)] true = .ok [0, -1] := by
  norm_num [compute_tension, tensionLoop, tensionStep, nanmin, nanmax, List.lookup]


/-!
### `vectorized_angles` and the d3 indicator (`tis_metrics.py`,
`features.py` lines 35-44)

The index's TIS rows and the key TIS are exact `Fin 6 → KC` vectors; the
unit-normalized offsets require real square roots, so this stage works with
real-complex vectors `Fin 6 → ℂ`.  A `vectorized_angles` output entry is
`Option ℝ` (`none` = NaN, produced whenever `denom = v_norm * r_norm` is not
positive); the d3 accumulator starts at `np.inf` (`some ⊤` in
`Option (WithTop ℝ)`) and `np.minimum` propagates NaN.
-/

/-- The real-complex image of a `KC` value. -/
noncomputable def KCtoC (z : KC) : ℂ := ⟨Ksq.toReal z.re, Ksq.toReal z.im⟩

/-- `np.sum(np.abs(v)**2)` for a 6-vector. -/
noncomputable def cnormSq (v : Fin 6 → ℂ) : ℝ :=
  ∑ k : Fin 6, Complex.normSq (v k)

/-- `np.sum(vectors * np.conj(ref), axis=1)` for one row. -/
noncomputable def cdot (v w : Fin 6 → ℂ) : ℂ :=
  ∑ k : Fin 6, v k * (starRingEnd ℂ) (w k)

open Classical in
/-- One entry of `tis_metrics.vectorized_angles`: NaN (`none`) unless
`denom = ‖v‖·‖ref‖ > 0`, else `arccos(clip(|⟨v,ref⟩|/denom, 0, 1))`. -/
noncomputable def vecAngleEntry (v ref : Fin 6 → ℂ) : Option ℝ :=
  if 0 < Real.sqrt (cnormSq v) * Real.sqrt (cnormSq ref) then
    some (Real.arccos (min 1 (max 0
      (Complex.abs (cdot v ref) / (Real.sqrt (cnormSq v) * Real.sqrt (cnormSq ref))))))
  else none

/-- Embedding of `tis_metrics.vectorized_angles` (row-wise). -/
noncomputable def vectorized_angles (vectors : List (Fin 6 → ℂ))
    (ref : Fin 6 → ℂ) : List (Option ℝ) :=
  vectors.map (fun v => vecAngleEntry v ref)

open Classical in
/-- One row of `offset_unit` in `compute_features`: `offset / ‖offset‖` when
`‖offset‖ > 0`, else the zero row left by `np.zeros_like`. -/
noncomputable def offsetUnitRow (tisrow ktis : Fin 6 → KC) : Fin 6 → ℂ :=
  if 0 < Real.sqrt (cnormSq (fun k => KCtoC (tisrow k - ktis k))) then
    fun k => KCtoC (tisrow k - ktis k) /
      (Real.sqrt (cnormSq (fun j => KCtoC (tisrow j - ktis j))) : ℂ)
  else fun _ => 0

/-- `np.minimum` on float entries: NaN-propagating minimum. -/
noncomputable def nanMin (x y : Option (WithTop ℝ)) : Option (WithTop ℝ) :=
  match x, y with
  | some a, some b => some (min a b)
  | _, _ => none

/-- A float angle viewed among the `np.inf`-capable d3 values. -/
def liftAngle (x : Option ℝ) : Option (WithTop ℝ) :=
  x.map (fun v => WithTop.some v)

/-- The d3 block of `compute_features`: offsets of all rows from the key,
unit-normalized (zero row when the offset vanishes), then
`d3 = np.minimum` over the prototype angles, starting from `np.inf`. -/
noncomputable def d3Of (tis : List (Fin 6 → KC)) (ktis : Fin 6 → KC)
    (protos : List (Fin 6 → KC)) : List (Option (WithTop ℝ)) :=
  protos.foldl
    (fun d3 proto =>
      List.zipWith nanMin d3
        ((vectorized_angles (tis.map (fun t => offsetUnitRow t ktis))
          (fun k => KCtoC (proto k - ktis k))).map liftAngle))
    (tis.map (fun _ => some (⊤ : WithTop ℝ)))

theorem cnormSq_zero : cnormSq (fun _ => 0) = 0 := by
  simp [cnormSq]

theorem offsetUnitRow_self (v : Fin 6 → KC) :
    offsetUnitRow v v = fun _ => 0 := by
  rw [offsetUnitRow]
  have hoff : (fun k => KCtoC (v k - v k)) = fun _ => (0:ℂ) := by
    funext k
    simp [KCtoC, Complex.ext_iff]
  rw [if_neg]
  rw [hoff, cnormSq_zero, Real.sqrt_zero]
  exact lt_irrefl 0

theorem vecAngleEntry_zero (ref : Fin 6 → ℂ) :
    vecAngleEntry (fun _ => 0) ref = none := by
  rw [vecAngleEntry, if_neg]
  rw [cnormSq_zero, Real.sqrt_zero, zero_mul]
  exact lt_irrefl 0

theorem nanMin_none_right (x : Option (WithTop ℝ)) : nanMin x none = none := by
  rcases x with _ | a <;> rfl

theorem nanMin_none_left (x : Option (WithTop ℝ)) : nanMin none x = none := by
  rcases x with _ | a <;> rfl

/-- Helper for C2: whenever a row's TIS equals the key TIS and at least one
prototype exists, the d3 entry for that row is NaN. -/
theorem d3_entry_nan (tis : List (Fin 6 → KC)) (ktis : Fin 6 → KC)
    (protos : List (Fin 6 → KC)) (i : ℕ) (hi : i < tis.length)
    (heq : tis.getD i ktis = ktis) (hp : protos ≠ []) :
    (d3Of tis ktis protos).getD i (some 0) = none := by
  rw [d3Of]
  set offunit := tis.map (fun t => offsetUnitRow t ktis) with hoffu
  set F := (fun (d3 : List (Option (WithTop ℝ))) (proto : Fin 6 → KC) =>
    List.zipWith nanMin d3
      ((vectorized_angles offunit
        (fun k => KCtoC (proto k - ktis k))).map liftAngle)) with hF
  have hou_len : offunit.length = tis.length := by simp [hoffu]
  have htis_i : tis[i] = ktis := by
    rw [List.getD_eq_getElem _ _ hi] at heq
    exact heq
  have hou_i : ∀ h : i < offunit.length, offunit[i] = fun _ => (0:ℂ) := by
    intro h
    simp only [hoffu, List.getElem_map]
    rw [htis_i]
    exact offsetUnitRow_self ktis
  have hva_len : ∀ proto : Fin 6 → KC,
      (vectorized_angles offunit (fun k => KCtoC (proto k - ktis k))).length =
        tis.length := by
    intro proto
    simp [vectorized_angles, hou_len]
  have hF_len : ∀ (a : List (Option (WithTop ℝ))) proto, a.length = tis.length →
      (F a proto).length = tis.length := by
    intro a proto ha
    simp [hF, ha, hva_len proto]
  have hF_entry_nan : ∀ (a : List (Option (WithTop ℝ))) proto
      (h : i < (F a proto).length), (F a proto)[i] = none := by
    intro a proto h
    have hi2 : i < (vectorized_angles offunit
        (fun k => KCtoC (proto k - ktis k))).length := by
      rw [hva_len proto]; exact hi
    simp only [hF, List.getElem_zipWith, List.getElem_map] at h ⊢
    simp only [vectorized_angles, List.getElem_map]
    rw [hou_i (by rw [hou_len]; exact hi), vecAngleEntry_zero]
    exact nanMin_none_right _
  have hF_keeps_nan : ∀ (a : List (Option (WithTop ℝ))) proto
      (h : i < a.length), a[i] = none →
      ∀ h2 : i < (F a proto).length, (F a proto)[i] = none := by
    intro a proto h hnan h2
    simp only [hF, List.getElem_zipWith] at h2 ⊢
    rw [hnan]
    exact nanMin_none_left _
  have absorb : ∀ (ps : List (Fin 6 → KC)) (a : List (Option (WithTop ℝ))),
      a.length = tis.length → (∀ h : i < a.length, a[i] = none) →
      (ps.foldl F a).length = tis.length ∧
        ∀ h : i < (ps.foldl F a).length, (ps.foldl F a)[i] = none := by
    intro ps
    induction ps with
    | nil => intro a ha hnan; exact ⟨ha, hnan⟩
    | cons r rs ih =>
      intro a ha hnan
      rw [List.foldl_cons]
      exact ih (F a r) (hF_len a r ha)
        (hF_keeps_nan a r (by rw [ha]; exact hi) (hnan (by rw [ha]; exact hi)))
  rcases protos with _ | ⟨p, rest⟩
  · exact absurd rfl hp
  · rw [List.foldl_cons]
    set init := tis.map (fun _ => some (⊤ : WithTop ℝ)) with hinit
    have hinit_len : init.length = tis.length := by simp [hinit]
    have hfirst_len : (F init p).length = tis.length := hF_len init p hinit_len
    have hfirst : ∀ h : i < (F init p).length, (F init p)[i] = none :=
      fun h => hF_entry_nan init p h
    rcases absorb rest (F init p) hfirst_len hfirst with ⟨hlen, hnan⟩
    rw [List.getD_eq_getElem _ _ (by rw [hlen]; exact hi)]
    exact hnan _

/-- C2 (amended): for every index row whose TIS equals the key TIS, the d3
value computed by `compute_features` is NaN, not 0: the zero offset row fails
the `denom > 0` guard of `vectorized_angles`, producing NaN, and
`np.minimum(inf, NaN)` propagates the NaN.  (The original claim, following
§4.4 of the spec, says d3 is set to 0 there; see the counterexample.) -/
theorem C2_d3_nan (tis : List (Fin 6 → KC)) (ktis : Fin 6 → KC)
    (protos : List (Fin 6 → KC)) (i : ℕ) (hi : i < tis.length)
    (heq : tis.getD i ktis = ktis) (hp : protos ≠ []) :
    (d3Of tis ktis protos).getD i (some 0) = none :=
  d3_entry_nan tis ktis protos i hi heq hp

/-- C2 witness: a one-row index whose chroma is the C-major key scale, with
the C-major key and the three C-major prototype triads (I, IV, V). -/
theorem C2_d3_nan_witness :
    0 < ([tisOfBits [1,0,1,0,1,1,0,1,0,1,0,1]] :
        List (Fin 6 → KC)).length ∧
    ([tisOfBits [1,0,1,0,1,1,0,1,0,1,0,1]].getD 0
        (tisOfBits [1,0,1,0,1,1,0,1,0,1,0,1]) =
      tisOfBits [1,0,1,0,1,1,0,1,0,1,0,1]) ∧
    ([tisOfBits [1,0,0,0,1,0,0,1,0,0,0,0],
      tisOfBits [1,0,0,0,0,1,0,0,0,1,0,0],
      tisOfBits [0,0,1,0,0,0,0,1,0,0,0,1]] : List (Fin 6 → KC)) ≠ [] ∧
    (d3Of [tisOfBits [1,0,1,0,1,1,0,1,0,1,0,1]]
      (tisOfBits [1,0,1,0,1,1,0,1,0,1,0,1])
      [tisOfBits [1,0,0,0,1,0,0,1,0,0,0,0],
       tisOfBits [1,0,0,0,0,1,0,0,0,1,0,0],
       tisOfBits [0,0,1,0,0,0,0,1,0,0,0,1]]).getD 0 (some 0) = none :=
  ⟨by simp, by simp, by simp,
   C2_d3_nan _ _ _ 0 (by simp) (by simp) (by simp)⟩

/-- C2 counterexample: in that configuration the row's d3 is NaN, hence not
the 0 the claim requires. -/
theorem C2_counterexample :
    ¬ (d3Of [tisOfBits [1,0,1,0,1,1,0,1,0,1,0,1]]
        (tisOfBits [1,0,1,0,1,1,0,1,0,1,0,1])
        [tisOfBits [1,0,0,0,1,0,0,1,0,0,0,0],
         tisOfBits [1,0,0,0,0,1,0,0,0,1,0,0],
         tisOfBits [0,0,1,0,0,0,0,1,0,0,0,1]]).getD 0 (some 0) =
      some (0 : WithTop ℝ) := by
  rw [d3_entry_nan _ _ _ 0 (by simp) (by simp) (by simp)]
  simp

/-!
### Hierarchical reduction (`tonal_tension/hierarchy.py`,
`hierarchical_tension_last` lines 67-111)

Leaves carry the region kind of their function label (t→TR, s→SR, d→DR).
The grammar `while changed` loop scans the three rules in order and restarts
from the left after the first merge; the final `while len(nodes) > 1` loop
combines the leftmost pair into a `ROOT` node headed by `stable_head` until
one root remains.  Only the tree shapes and head positions matter to the
claim, so spans and parent pointers of the Python `Node` are not carried.
-/

/-- A node of the reduction tree. -/
inductive HNode where
  | leaf (kind : String) (pos : ℕ)
  | node (kind : String) (headPos : ℕ) (l r : HNode)
deriving DecidableEq

/-- `node.kind`. -/
def HNode.kind : HNode → String
  | .leaf k _ => k
  | .node k _ _ _ => k

/-- `node.head_pos`. -/
def HNode.headPos : HNode → ℕ
  | .leaf _ p => p
  | .node _ h _ _ => h

/-- One left-to-right scan of `for i in range(len(nodes) - 1)` for a single
grammar rule: merge the first adjacent pair satisfying `pred`, or `none`. -/
def scanRule (pred : String → String → Bool) (mk : HNode → HNode → HNode) :
    List HNode → Option (List HNode)
  | [] => none
  | [_] => none
  | a :: b :: rest =>
    if pred a.kind b.kind then some (mk a b :: rest)
    else
      match scanRule pred mk (b :: rest) with
      | some ns => some (a :: ns)
      | none => none

/-- One pass of the `while changed` body: try rule `SR DR → DR` (head of the
right child), then `DR TR → TR` (head right), then `TR DR → TR` (head left);
`none` when no rule applies anywhere. -/
def grammarStep (ns : List HNode) : Option (List HNode) :=
  match scanRule (fun ka kb => ka == "SR" && kb == "DR")
      (fun a b => .node "DR" b.headPos a b) ns with
  | some out => some out
  | none =>
    match scanRule (fun ka kb => ka == "DR" && kb == "TR")
        (fun a b => .node "TR" b.headPos a b) ns with
    | some out => some out
    | none =>
      scanRule (fun ka kb => ka == "TR" && kb == "DR")
        (fun a b => .node "TR" a.headPos a b) ns

/-- The `while changed and len(nodes) > 1` loop (each merge shortens the
list, so the initial length is enough fuel). -/
def grammarLoop : ℕ → List HNode → List HNode
  | 0, ns => ns
  | fuel + 1, ns =>
    if ns.length ≤ 1 then ns
    else
      match grammarStep ns with
      | some ns2 => grammarLoop fuel ns2
      | none => ns

/-- The grammar phase on the leaf list. -/
def grammarPhase (ns : List HNode) : List HNode := grammarLoop ns.length ns

/-- `prio.get(func_labels[x], 9)`. -/
def prioOf (f : String) : ℕ :=
  if f = "t" then 0 else if f = "s" then 1 else if f = "d" then 2 else 9

/-- `stable_head(a, b)`: `a if (prio_a, d2_a) <= (prio_b, d2_b) else b`,
with the Python tuple order written out. -/
def stable_head (labels : List String) (d2 : List ℚ) (a b : ℕ) : ℕ :=
  if prioOf (labels.getD a "") < prioOf (labels.getD b "") then a
  else if prioOf (labels.getD a "") = prioOf (labels.getD b "") ∧
      d2.getD a 0 ≤ d2.getD b 0 then a
  else b

/-- The `while len(nodes) > 1` loop: repeatedly replace the two leftmost
nodes by a `ROOT` node headed by `stable_head`. -/
def combineLoop (labels : List String) (d2 : List ℚ) :
    ℕ → List HNode → List HNode
  | 0, ns => ns
  | fuel + 1, ns =>
    match ns with
    | a :: b :: rest =>
      combineLoop labels d2 fuel
        (.node "ROOT" (stable_head labels d2 a.headPos b.headPos) a b :: rest)
    | _ => ns

/-- The combination phase (fuel = list length always suffices). -/
def combinePhase (labels : List String) (d2 : List ℚ) (ns : List HNode) :
    List HNode :=
  combineLoop labels d2 ns.length ns

/-- The whole tree-building part of `hierarchical_tension_last`: grammar
phase, then pairwise combination. -/
def reduceTree (labels : List String) (d2 : List ℚ) (leaves : List HNode) :
    List HNode :=
  combinePhase labels d2 (grammarPhase leaves)

/-- The head selection exactly as the specification words it: the child head
with higher function priority in the order t before s before d, ties broken
in favor of the head with lower d2 (the left one when the d2 values tie). -/
def specHeadPick (labels : List String) (d2 : List ℚ) (a b : ℕ) : ℕ :=
  if prioOf (labels.getD a "") < prioOf (labels.getD b "") then a
  else if prioOf (labels.getD b "") < prioOf (labels.getD a "") then b
  else if d2.getD a 0 ≤ d2.getD b 0 then a
  else b

theorem stable_head_eq_spec (labels : List String) (d2 : List ℚ) (a b : ℕ) :
    stable_head labels d2 a b = specHeadPick labels d2 a b := by
  rw [stable_head, specHeadPick]
  by_cases h1 : prioOf (labels.getD a "") < prioOf (labels.getD b "")
  · rw [if_pos h1, if_pos h1]
  · rw [if_neg h1, if_neg h1]
    by_cases h2 : prioOf (labels.getD b "") < prioOf (labels.getD a "")
    · rw [if_pos h2, if_neg ?hB]
      case hB =>
        rintro ⟨heq, _⟩
        omega
    · have heq : prioOf (labels.getD a "") = prioOf (labels.getD b "") := by
        omega
      rw [if_neg h2]
      by_cases h3 : d2.getD a 0 ≤ d2.getD b 0
      · rw [if_pos ⟨heq, h3⟩, if_pos h3]
      · rw [if_neg ?hB2, if_neg h3]
        case hB2 =>
          rintro ⟨_, hh⟩
          exact h3 hh

theorem combineLoop_fold (labels : List String) (d2 : List ℚ) :
    ∀ (fuel : ℕ) (a : HNode) (rest : List HNode), rest.length ≤ fuel →
      combineLoop labels d2 fuel (a :: rest) =
        [rest.foldl
          (fun acc n =>
            HNode.node "ROOT" (stable_head labels d2 acc.headPos n.headPos) acc n)
          a] := by
  intro fuel
  induction fuel with
  | zero =>
    intro a rest hlen
    rw [Nat.le_zero] at hlen
    rw [List.length_eq_zero] at hlen
    subst hlen
    rfl
  | succ fuel ih =>
    intro a rest hlen
    rcases rest with _ | ⟨b, rest2⟩
    · rfl
    · rw [combineLoop, List.foldl_cons]
      exact ih _ rest2 (by simp only [List.length_cons] at hlen; omega)

/-- C7: whenever no grammar rule applies (`grammarStep = none`) and more than
one node remains, the combination loop of `hierarchical_tension_last` merges
the remaining neighbors pairwise left-to-right into `ROOT` nodes until one
root remains, and every `ROOT` head is chosen exactly as the spec says: the
child head of higher function priority (t before s before d), ties broken by
lower d2. -/
theorem C7_linear_combine (labels : List String) (d2 : List ℚ) (a : HNode)
    (rest : List HNode) (hnone : grammarStep (a :: rest) = none)
    (hlen : rest ≠ []) :
    combinePhase labels d2 (a :: rest) =
      [rest.foldl
        (fun acc n =>
          HNode.node "ROOT" (specHeadPick labels d2 acc.headPos n.headPos) acc n)
        a] ∧
    (∀ x y : ℕ, stable_head labels d2 x y = specHeadPick labels d2 x y) := by
  constructor
  · rw [combinePhase, combineLoop_fold labels d2 _ a rest (by simp)]
    have hfun :
        (fun (acc n : HNode) =>
          HNode.node "ROOT" (stable_head labels d2 acc.headPos n.headPos) acc n) =
        (fun (acc n : HNode) =>
          HNode.node "ROOT" (specHeadPick labels d2 acc.headPos n.headPos) acc n) := by
      funext acc n
      rw [stable_head_eq_spec]
    rw [hfun]
  · exact fun x y => stable_head_eq_spec labels d2 x y

theorem C7_linear_combine_witness :
    grammarStep [HNode.leaf "TR" 0, HNode.leaf "TR" 1] = none ∧
    ([HNode.leaf "TR" 1] : List HNode) ≠ [] ∧
    (combinePhase ["t", "t"] [0, 1] [HNode.leaf "TR" 0, HNode.leaf "TR" 1] =
      [[HNode.leaf "TR" 1].foldl
        (fun acc n =>
          HNode.node "ROOT" (specHeadPick ["t", "t"] [0, 1] acc.headPos n.headPos)
            acc n)
        (HNode.leaf "TR" 0)] ∧
     (∀ x y : ℕ, stable_head ["t", "t"] [0, 1] x y =
        specHeadPick ["t", "t"] [0, 1] x y)) :=
  ⟨by decide, by decide,
   C7_linear_combine ["t", "t"] [0, 1] (HNode.leaf "TR" 0) [HNode.leaf "TR" 1]
     (by decide) (by decide)⟩

/-!
### Voice leading (`tonal_tension/voice_leading.py`, `voice_leading_tension`
lines 30-84)

The cost matrix is exact: `PC_DIST` entries are naturals and `μ(a,b)` is the
real square root of an exact ℚ(√3) squared distance between singleton TIS
vectors.  Float constants are idealised as their decimal values (0.05 = 1/20).
The primary assignment solver, scipy's `linear_sum_assignment`, is an
external library and is modelled by its contract: it returns SOME
minimum-total-cost perfect assignment, with unspecified tie-breaking.
`voice_leading_tension` is therefore embedded as the relation `IsVLT`
between inputs and the values the function can return.
-/

/-- `PC_DIST[i, j] = min(|i - j|, 12 - |i - j|)`. -/
def pcDist (i j : ℕ) : ℕ :=
  min ((i - j : ℤ)).natAbs (12 - ((i - j : ℤ)).natAbs)

/-- `_chroma_to_pc_list(bits) = [i for i, b in enumerate(bits) if b]`. -/
def chromaToPcList (bits : List ℕ) : List ℕ :=
  (List.range bits.length).filter (fun i => decide (bits.getD i 0 ≠ 0))

/-- `NOTE_TIS[pc]`: the TIS of the singleton chroma `{pc}`. -/
def noteTis (pc : ℕ) : Fin 6 → KC :=
  tisOfBits ((List.range 12).map (fun n => if n = pc then 1 else 0))

/-- The squared norm of a 6-vector over KC, an exact real of ℚ(√3). -/
def vecNormSqK (v : Fin 6 → KC) : Ksq :=
  ∑ k : Fin 6, KC.normSq (v k)

/-- The exact square of `euclidean_distance(NOTE_TIS[a], NOTE_TIS[b])`. -/
def muSq (a b : ℕ) : Ksq :=
  vecNormSqK (fun k => noteTis a k - noteTis b k)

/-- `euclidean_distance(NOTE_TIS[a], NOTE_TIS[b])`. -/
noncomputable def mu (a b : ℕ) : ℝ := Real.sqrt (Ksq.toReal (muSq a b))

/-- `NOTE_TIS_NORM`, the common norm of every singleton TIS (the source
reads it off `NOTE_TIS[0]`). -/
noncomputable def noteTisNormR : ℝ :=
  Real.sqrt (Ksq.toReal (vecNormSqK (noteTis 0)))

/-- Entry (i, j) of the `n × n` cost matrix: `s·μ` on real pairs,
`addition_penalty * NOTE_TIS_NORM` on padded slots. -/
noncomputable def vlCost (A B : List ℕ) (penalty : ℕ) (i j : ℕ) : ℝ :=
  if i < A.length ∧ j < B.length then
    (pcDist (A.getD i 0) (B.getD j 0) : ℝ) * mu (A.getD i 0) (B.getD j 0)
  else (penalty : ℝ) * noteTisNormR

/-- Total cost of a perfect assignment. -/
noncomputable def assignCost (A B : List ℕ) (penalty n : ℕ)
    (σ : Equiv.Perm (Fin n)) : ℝ :=
  ∑ i : Fin n, vlCost A B penalty i.val (σ i).val

/-- `stability = sum(exp(-0.05 * chosen))` for an assignment. -/
noncomputable def assignStability (A B : List ℕ) (penalty n : ℕ)
    (σ : Equiv.Perm (Fin n)) : ℝ :=
  ∑ i : Fin n, Real.exp (-(1/20) * vlCost A B penalty i.val (σ i).val)

/-- The solver contract of `linear_sum_assignment`: a minimum-total-cost
assignment. -/
def IsOptimalAssign (A B : List ℕ) (penalty n : ℕ)
    (σ : Equiv.Perm (Fin n)) : Prop :=
  ∀ τ : Equiv.Perm (Fin n), assignCost A B penalty n σ ≤ assignCost A B penalty n τ

/-- The values `voice_leading_tension(bits_a, bits_b)` can return: `0.0` when
either pitch-class list is empty, else `-stability` of some minimum-cost
assignment over the `max(|A|, |B|)`-sized cost matrix. -/
def IsVLT (bits_a bits_b : List ℕ) (penalty : ℕ) (x : ℝ) : Prop :=
  let A := chromaToPcList bits_a
  let B := chromaToPcList bits_b
  if A = [] ∨ B = [] then x = 0
  else ∃ σ : Equiv.Perm (Fin (max A.length B.length)),
    IsOptimalAssign A B penalty (max A.length B.length) σ ∧
    x = -assignStability A B penalty (max A.length B.length) σ

theorem pcDist_symm (i j : ℕ) : pcDist i j = pcDist j i := by
  have h : ((i:ℤ) - j).natAbs = ((j:ℤ) - i).natAbs := by
    rw [← Int.natAbs_neg, neg_sub]
  rw [pcDist, pcDist, h]

theorem muSq_symm (a b : ℕ) : muSq a b = muSq b a := by
  rw [muSq, muSq, vecNormSqK, vecNormSqK]
  exact Finset.sum_congr rfl (fun k _ => KC.normSq_neg_sub _ _)

theorem mu_symm (a b : ℕ) : mu a b = mu b a := by
  rw [mu, mu, muSq_symm]

theorem vlCost_symm (A B : List ℕ) (penalty i j : ℕ) :
    vlCost B A penalty j i = vlCost A B penalty i j := by
  rw [vlCost, vlCost]
  by_cases h : i < A.length ∧ j < B.length
  · rw [if_pos ⟨h.2, h.1⟩, if_pos h, pcDist_symm, mu_symm]
  · rw [if_neg (by tauto), if_neg h]

theorem assignCost_symm (A B : List ℕ) (penalty n : ℕ) (σ : Equiv.Perm (Fin n)) :
    assignCost B A penalty n σ⁻¹ = assignCost A B penalty n σ := by
  rw [assignCost, assignCost]
  apply Fintype.sum_equiv σ⁻¹
  intro j
  rw [vlCost_symm, Equiv.Perm.apply_inv_self]

theorem assignStability_symm (A B : List ℕ) (penalty n : ℕ)
    (σ : Equiv.Perm (Fin n)) :
    assignStability B A penalty n σ⁻¹ = assignStability A B penalty n σ := by
  rw [assignStability, assignStability]
  apply Fintype.sum_equiv σ⁻¹
  intro j
  rw [vlCost_symm, Equiv.Perm.apply_inv_self]

theorem isOptimal_symm (A B : List ℕ) (penalty n : ℕ) (σ : Equiv.Perm (Fin n))
    (h : IsOptimalAssign A B penalty n σ) :
    IsOptimalAssign B A penalty n σ⁻¹ := by
  intro τ
  rw [assignCost_symm]
  have := h τ⁻¹
  calc assignCost A B penalty n σ ≤ assignCost A B penalty n τ⁻¹ := this
    _ = assignCost B A penalty n τ := assignCost_symm B A penalty n τ

/-- Helper: the achievable-value sets of `voice_leading_tension` for (a, b)
and (b, a) coincide (the (B,A) cost matrix is the transpose of the (A,B)
one, and inverting an optimal assignment selects the same cell multiset). -/
theorem isVLT_symm_general (bits_a bits_b : List ℕ) (penalty : ℕ) (x : ℝ)
    (h : IsVLT bits_a bits_b penalty x) : IsVLT bits_b bits_a penalty x := by
  rw [IsVLT] at h ⊢
  set A := chromaToPcList bits_a with hA
  set B := chromaToPcList bits_b with hB
  by_cases hemp : A = [] ∨ B = []
  · rw [if_pos hemp] at h
    rw [if_pos (by tauto)]
    exact h
  · rw [if_neg hemp] at h
    rw [if_neg (by tauto)]
    have hmax : max B.length A.length = max A.length B.length := Nat.max_comm _ _
    rw [hmax]
    rcases h with ⟨σ, hopt, hval⟩
    exact ⟨σ⁻¹, isOptimal_symm A B penalty _ σ hopt,
      by rw [assignStability_symm, ← hval]⟩

/-- C4: with the external assignment solver modelled by its contract (any
minimum-cost assignment), the set of values `voice_leading_tension` can
return for (A, B) equals the set for (B, A) when |A| = |B|, and every
achievable value is non-positive (finiteness is inherent in the real-valued
model: the value is a finite sum of exponentials, never an overflow). -/
theorem C4_voice_leading (bits_a bits_b : List ℕ) (penalty : ℕ)
    (hA : chromaToPcList bits_a ≠ []) (hB : chromaToPcList bits_b ≠ []) :
    ((chromaToPcList bits_a).length = (chromaToPcList bits_b).length →
      ∀ x : ℝ, IsVLT bits_a bits_b penalty x ↔ IsVLT bits_b bits_a penalty x) ∧
    (∀ x : ℝ, IsVLT bits_a bits_b penalty x → x ≤ 0) := by
  constructor
  · intro _ x
    exact ⟨isVLT_symm_general bits_a bits_b penalty x,
      isVLT_symm_general bits_b bits_a penalty x⟩
  · intro x hx
    rw [IsVLT] at hx
    by_cases hemp : chromaToPcList bits_a = [] ∨ chromaToPcList bits_b = [] 
    · rw [if_pos hemp] at hx
      rw [hx]
    · rw [if_neg hemp] at hx
      rcases hx with ⟨σ, _, hval⟩
      rw [hval, neg_nonpos]
      apply Finset.sum_nonneg
      intro i _
      exact le_of_lt (Real.exp_pos _)

theorem C4_voice_leading_witness :
    chromaToPcList [1,0,0,0,1,0,0,1,0,0,0,0] ≠ [] ∧
    chromaToPcList [1,0,0,0,1,0,0,0,0,1,0,0] ≠ [] ∧
    (((chromaToPcList [1,0,0,0,1,0,0,1,0,0,0,0]).length =
        (chromaToPcList [1,0,0,0,1,0,0,0,0,1,0,0]).length →
      ∀ x : ℝ, IsVLT [1,0,0,0,1,0,0,1,0,0,0,0] [1,0,0,0,1,0,0,0,0,1,0,0] 4 x ↔
        IsVLT [1,0,0,0,1,0,0,0,0,1,0,0] [1,0,0,0,1,0,0,1,0,0,0,0] 4 x) ∧
     (∀ x : ℝ, IsVLT [1,0,0,0,1,0,0,1,0,0,0,0] [1,0,0,0,1,0,0,0,0,1,0,0] 4 x →
        x ≤ 0)) :=
  ⟨by decide, by decide,
   C4_voice_leading [1,0,0,0,1,0,0,1,0,0,0,0] [1,0,0,0,1,0,0,0,0,1,0,0] 4
     (by decide) (by decide)⟩

/-!
### Building the index (`tis_index.py`, `build_tis_index` lines 219-283, and
the representative selection of `chroma_index.py`)

The input mapping is an insertion-ordered association list with distinct
chord names (a Python dict).  Masks are grouped with `setdefault` order,
sorted ascending, and each group is processed in that order.  On valid input
`bits_to_mask` returns `bitsVal`, `chroma_matrix_to_tis` returns `tisRowOf`
of each row, and `np.sqrt / np.divide` become real square roots and
divisions; the builder below is the success path of the source under the
validity hypotheses carried by the theorems.
-/

/-- `chord_root`: initial `[A-G]` (upper-cased) plus an optional `#`/`b`. -/
def chord_root (name : String) : String :=
  match name.data with
  | [] => ""
  | c0 :: rest =>
    let c0u := c0.toUpper
    if c0u < 'A' ∨ 'G' < c0u then ""
    else
      match rest with
      | c1 :: _ =>
        if c1 = '#' ∨ c1 = 'b' then String.mk [c0u, c1] else String.mk [c0u]
      | [] => String.mk [c0u]

/-- `1 if "/" in name else 0`. -/
def slashVal (name : String) : ℕ := if name.data.contains '/' then 1 else 0

/-- Strict comparison by `_name_pref_key(name) = (has_slash, len, name)`. -/
def prefKeyLt (x y : String) : Prop :=
  slashVal x < slashVal y ∨
    (slashVal x = slashVal y ∧
      (x.length < y.length ∨ (x.length = y.length ∧ x < y)))

instance : DecidableRel prefKeyLt := fun x y => by
  rw [prefKeyLt]
  infer_instance

/-- Non-strict comparison by `_name_pref_key`, used for the stable sort of
per-root representatives. -/
def prefKeyLe (x y : String) : Prop := prefKeyLt x y ∨ x = y

instance : DecidableRel prefKeyLe := fun x y => by
  rw [prefKeyLe]
  infer_instance

/-- Strict comparison by the key `(len(n), n)`. -/
def shortLexLt (x y : String) : Prop :=
  x.length < y.length ∨ (x.length = y.length ∧ x < y)

instance : DecidableRel shortLexLt := fun x y => by
  rw [shortLexLt]
  infer_instance

/-- Python's `min(pool, key=k)`: the first element with minimal key (later
elements replace the running best only when strictly smaller). -/
def minByLt (lt : String → String → Prop) [DecidableRel lt]
    (x : String) (xs : List String) : String :=
  xs.foldl (fun best n => if lt n best then n else best) x

/-- `choose_representative` (the empty input raises in Python; groups are
never empty here, the `""` default is unreachable). -/
def choose_representative (names : List String) : String :=
  match names with
  | [] => ""
  | x :: xs => minByLt prefKeyLt x xs

/-- `choose_shortest_no_slash`. -/
def choose_shortest_no_slash (names : List String) : String :=
  let no_slash := names.filter (fun n => !n.data.contains '/')
  let pool := if no_slash.isEmpty then names else no_slash
  match pool with
  | [] => ""
  | x :: xs => minByLt shortLexLt x xs

/-- Append `n` to the group of `r`, or start a new group at the end
(`dict.setdefault(...).append(...)` over an insertion-ordered dict). -/
def addToGroup : List (String × List String) → String → String →
    List (String × List String)
  | [], r, n => [(r, [n])]
  | (k, v) :: rest, r, n =>
    if k = r then (k, v ++ [n]) :: rest else (k, v) :: addToGroup rest r n

/-- `choose_representatives_by_root`: group names by extracted root (names
with no root are skipped), pick the shortest-no-slash name per root, then
stable-sort the representatives by `_name_pref_key`. -/
def choose_representatives_by_root (names : List String) : List String :=
  let by_root := names.foldl
    (fun acc n =>
      let r := chord_root n
      if r = "" then acc else addToGroup acc r n) []
  (by_root.map (fun p => choose_shortest_no_slash p.2)).insertionSort prefKeyLe

/-- Append a chord name to its mask group (`setdefault` on the mask dict). -/
def addAlias : List (ℕ × List String) → ℕ → String → List (ℕ × List String)
  | [], m, n => [(m, [n])]
  | (k, v) :: rest, m, n =>
    if k = m then (k, v ++ [n]) :: rest else (k, v) :: addAlias rest m n

/-- The `mask_to_aliases` dict: each chord appended to the group of its
mask, in input order (`bits_to_mask` returns `bitsVal` on valid input). -/
def maskGroups (chords : List (String × List ℕ)) : List (ℕ × List String) :=
  chords.foldl (fun acc p => addAlias acc (bitsVal p.2) p.1) []

/-- The cumulative-offsets list: `[0]` followed by the running totals, as the
source's repeated `offsets_list.append(len(flat))` produces. -/
def cumsum : ℕ → List ℕ → List ℕ
  | c, [] => [c]
  | c, l :: ls => c :: cumsum (c + l) ls

/-- The packed index artifact (the numeric fields of `TISIndex`). -/
structure TISIndexE where
  rep_names : List String
  chroma_bits : List (List ℕ)
  chroma_mask : List ℕ
  tis : List (Fin 6 → KC)
  tis_norm : List ℝ
  tis_unit : List (Fin 6 → ℂ)
  rep_offsets : List ℕ
  rep_names_by_root : List String
  alias_offsets : List ℕ
  alias_names : List String

/-- The sorted alias group of one mask. -/
def aliasesOfMask (groups : List (ℕ × List String)) (m : ℕ) : List String :=
  ((groups.lookup m).getD []).insertionSort (· ≤ ·)

/-- The per-root representatives of one mask group (may be empty when no
name has a recognisable root). -/
def repsOfMask (groups : List (ℕ × List String)) (m : ℕ) : List String :=
  choose_representatives_by_root (aliasesOfMask groups m)

/-- The primary representative of one mask group. -/
def repOfMask (groups : List (ℕ × List String)) (m : ℕ) : String :=
  if (repsOfMask groups m).isEmpty then choose_representative (aliasesOfMask groups m)
  else choose_representative (repsOfMask groups m)

/-- The per-root representative slice pushed to `rep_names_by_root` for one
mask: `reps_by_root if reps_by_root else [rep]`. -/
def repSliceOfMask (groups : List (ℕ × List String)) (m : ℕ) : List String :=
  if (repsOfMask groups m).isEmpty then [repOfMask groups m]
  else repsOfMask groups m

/-- Embedding of `build_tis_index` (success path; see the section header). -/
noncomputable def build_tis_index (chords : List (String × List ℕ)) : TISIndexE :=
  let groups := maskGroups chords
  let masks := (groups.map Prod.fst).insertionSort (· ≤ ·)
  let bitsOf := fun m => (chords.lookup (repOfMask groups m)).getD []
  let tisRows := masks.map (fun m => tisRowOf ((bitsOf m).map (fun b : ℕ => (b : ℚ))) DEFAULT_WEIGHTS)
  { rep_names := masks.map (fun m => repOfMask groups m)
    chroma_bits := masks.map bitsOf
    chroma_mask := masks
    tis := tisRows
    tis_norm := tisRows.map (fun t => Real.sqrt (Ksq.toReal (vecNormSqK t)))
    tis_unit := tisRows.map
      (fun t => fun k => KCtoC (t k) / (Real.sqrt (Ksq.toReal (vecNormSqK t)) : ℂ))
    rep_offsets := cumsum 0 (masks.map (fun m => (repSliceOfMask groups m).length))
    rep_names_by_root := masks.flatMap (fun m => repSliceOfMask groups m)
    alias_offsets := cumsum 0 (masks.map (fun m => (aliasesOfMask groups m).length))
    alias_names := masks.flatMap (fun m => aliasesOfMask groups m) }

/-- `TISIndex.aliases_for_row`: the alias slice of one row. -/
def aliases_for_row (idx : TISIndexE) (row : ℕ) : List String :=
  (idx.alias_names.drop (idx.alias_offsets.getD row 0)).take
    (idx.alias_offsets.getD (row + 1) 0 - idx.alias_offsets.getD row 0)

theorem cumsum_length (c : ℕ) (ls : List ℕ) :
    (cumsum c ls).length = ls.length + 1 := by
  induction ls generalizing c with
  | nil => rfl
  | cons l ls ih => simp [cumsum, ih]

theorem cumsum_head (c : ℕ) (ls : List ℕ) : (cumsum c ls).head? = some c := by
  cases ls <;> rfl

theorem cumsum_ne_nil (c : ℕ) (ls : List ℕ) : cumsum c ls ≠ [] := by
  cases ls <;> simp [cumsum]

theorem cumsum_getLast (c : ℕ) (ls : List ℕ) :
    (cumsum c ls).getLast? = some (c + ls.sum) := by
  induction ls generalizing c with
  | nil => simp [cumsum]
  | cons l ls ih =>
    rw [cumsum]
    rcases h : cumsum (c + l) ls with _ | ⟨x, xs⟩
    · exact absurd h (cumsum_ne_nil _ _)
    · rw [List.getLast?_cons_cons, ← h, ih (c + l), List.sum_cons]
      congr 1
      omega

theorem cumsum_chain (c : ℕ) (ls : List ℕ) :
    List.Chain' (· ≤ ·) (cumsum c ls) := by
  induction ls generalizing c with
  | nil => simp [cumsum]
  | cons l ls ih =>
    rw [cumsum, List.chain'_cons']
    constructor
    · intro b hb
      rw [cumsum_head] at hb
      simp only [Option.mem_def, Option.some_inj] at hb
      omega
    · exact ih (c + l)

theorem cumsum_getD (c : ℕ) (ls : List ℕ) (i : ℕ) (hi : i ≤ ls.length) :
    (cumsum c ls).getD i 0 = c + (ls.take i).sum := by
  induction ls generalizing c i with
  | nil =>
    simp only [List.length_nil, Nat.le_zero] at hi
    subst hi
    simp [cumsum]
  | cons l ls ih =>
    cases i with
    | zero => simp [cumsum]
    | succ i =>
      rw [cumsum, List.getD_cons_succ, List.take_succ_cons, List.sum_cons,
        ih (c + l) i (by simpa using hi)]
      omega

theorem flatMap_slice {α β : Type} (l : List α) (f : α → List β) (i : ℕ)
    (hi : i < l.length) :
    ((l.flatMap f).drop ((cumsum 0 (l.map (fun a => (f a).length))).getD i 0)).take
      ((cumsum 0 (l.map (fun a => (f a).length))).getD (i + 1) 0 -
        (cumsum 0 (l.map (fun a => (f a).length))).getD i 0) = f l[i] := by
  have hlen : (l.map (fun a => (f a).length)).length = l.length := by simp
  rw [cumsum_getD 0 _ i (by rw [hlen]; omega),
    cumsum_getD 0 _ (i + 1) (by rw [hlen]; omega)]
  simp only [Nat.zero_add]
  have hstep : ((l.map (fun a => (f a).length)).take (i + 1)).sum =
      ((l.map (fun a => (f a).length)).take i).sum + (f l[i]).length := by
    rw [List.sum_take_succ _ i (by rw [hlen]; exact hi)]
    congr 1
    simp
  rw [hstep, Nat.add_sub_cancel_left, List.take_drop, List.flatMap_def]
  have key := List.drop_take_succ_flatten_eq_getElem (l.map f) i (by simpa using hi)
  rw [List.getElem_map] at key
  have hml : ((l.map f).map List.length) = l.map (fun a => (f a).length) := by
    rw [List.map_map]
    rfl
  rw [hml, hstep] at key
  exact key

theorem addAlias_keys (gs : List (ℕ × List String)) (m : ℕ) (n : String) :
    (addAlias gs m n).map Prod.fst =
      if m ∈ gs.map Prod.fst then gs.map Prod.fst
      else gs.map Prod.fst ++ [m] := by
  induction gs with
  | nil => simp [addAlias]
  | cons p rest ih =>
    rcases p with ⟨k, v⟩
    rw [addAlias]
    by_cases h : k = m
    · subst h
      simp
    · rw [if_neg h]
      simp only [List.map_cons]
      rw [ih]
      by_cases hm : m ∈ rest.map Prod.fst
      · rw [if_pos hm, if_pos (List.mem_cons_of_mem _ hm)]
      · rw [if_neg hm, if_neg (by
          intro hmem
          rcases List.mem_cons.1 hmem with heq | hmem2
          · exact h heq.symm
          · exact hm hmem2)]
        simp

theorem addAlias_keys_nodup (gs : List (ℕ × List String)) (m : ℕ) (n : String)
    (h : (gs.map Prod.fst).Nodup) : ((addAlias gs m n).map Prod.fst).Nodup := by
  rw [addAlias_keys]
  by_cases hm : m ∈ gs.map Prod.fst
  · rw [if_pos hm]
    exact h
  · rw [if_neg hm]
    rw [List.nodup_append]
    exact ⟨h, List.nodup_singleton m, by simpa using hm⟩

theorem foldl_addAlias_nodup (l : List (String × List ℕ)) :
    ∀ acc : List (ℕ × List String), (acc.map Prod.fst).Nodup →
      ((l.foldl (fun acc q => addAlias acc (bitsVal q.2) q.1) acc).map
        Prod.fst).Nodup := by
  induction l with
  | nil => exact fun acc h => h
  | cons q rest ih =>
    intro acc h
    rw [List.foldl_cons]
    exact ih _ (addAlias_keys_nodup acc (bitsVal q.2) q.1 h)

theorem maskGroups_keys_nodup (chords : List (String × List ℕ)) :
    ((maskGroups chords).map Prod.fst).Nodup :=
  foldl_addAlias_nodup chords [] (by simp)

theorem addAlias_prop (P : ℕ → String → Prop) (gs : List (ℕ × List String))
    (m : ℕ) (n : String) (hgs : ∀ p ∈ gs, ∀ x ∈ p.2, P p.1 x) (hn : P m n) :
    ∀ p ∈ addAlias gs m n, ∀ x ∈ p.2, P p.1 x := by
  induction gs with
  | nil =>
    intro p hp x hx
    rw [addAlias] at hp
    rcases List.mem_singleton.1 hp with rfl
    rcases List.mem_singleton.1 hx with rfl
    exact hn
  | cons q rest ih =>
    rcases q with ⟨k, v⟩
    intro p hp x hx
    rw [addAlias] at hp
    by_cases h : k = m
    · rw [if_pos h] at hp
      rcases List.mem_cons.1 hp with rfl | hp2
      · rcases List.mem_append.1 hx with hx1 | hx2
        · exact hgs (k, v) (List.mem_cons_self _ _) x hx1
        · rcases List.mem_singleton.1 hx2 with rfl
          rw [h]
          exact hn
      · exact hgs p (List.mem_cons_of_mem _ hp2) x hx
    · rw [if_neg h] at hp
      rcases List.mem_cons.1 hp with rfl | hp2
      · exact hgs (k, v) (List.mem_cons_self _ _) x hx
      · exact ih (fun r hr => hgs r (List.mem_cons_of_mem _ hr)) p hp2 x hx

theorem maskGroups_prop (chords : List (String × List ℕ)) :
    ∀ p ∈ maskGroups chords, ∀ x ∈ p.2,
      ∃ bits, (x, bits) ∈ chords ∧ bitsVal bits = p.1 := by
  have general : ∀ (l : List (String × List ℕ)) (acc : List (ℕ × List String)),
      (∀ q ∈ l, q ∈ chords) →
      (∀ p ∈ acc, ∀ x ∈ p.2, ∃ bits, (x, bits) ∈ chords ∧ bitsVal bits = p.1) →
      ∀ p ∈ l.foldl (fun acc q => addAlias acc (bitsVal q.2) q.1) acc,
        ∀ x ∈ p.2, ∃ bits, (x, bits) ∈ chords ∧ bitsVal bits = p.1 := by
    intro l
    induction l with
    | nil => exact fun acc _ hacc => hacc
    | cons q rest ih =>
      intro acc hl hacc
      rw [List.foldl_cons]
      apply ih
      · exact fun r hr => hl r (List.mem_cons_of_mem _ hr)
      · exact addAlias_prop
          (fun mk x => ∃ bits, (x, bits) ∈ chords ∧ bitsVal bits = mk)
          acc (bitsVal q.2) q.1 hacc
          ⟨q.2, by simpa using hl q (List.mem_cons_self _ _), rfl⟩
  exact general chords [] (fun q hq => hq) (by simp)

theorem lookup_mem_poly {α β : Type} [BEq α] [LawfulBEq α]
    (l : List (α × β)) (k : α) (v : β) (h : l.lookup k = some v) :
    (k, v) ∈ l := by
  induction l with
  | nil => simp [List.lookup] at h
  | cons p rest ih =>
    rcases p with ⟨k2, v2⟩
    rw [List.lookup] at h
    by_cases hk : k = k2
    · subst hk
      simp only [beq_self_eq_true] at h
      injection h with h
      subst h
      exact List.mem_cons_self _ _
    · rw [beq_false_of_ne hk] at h
      exact List.mem_cons_of_mem _ (ih h)

theorem lookup_of_mem_nodup {α β : Type} [BEq α] [LawfulBEq α]
    (l : List (α × β)) (k : α) (v : β) (hmem : (k, v) ∈ l)
    (hnd : (l.map Prod.fst).Nodup) : l.lookup k = some v := by
  induction l with
  | nil => simp at hmem
  | cons p rest ih =>
    rcases p with ⟨k2, v2⟩
    simp only [List.map_cons, List.nodup_cons] at hnd
    rw [List.lookup]
    rcases List.mem_cons.1 hmem with heq | hmem2
    · injection heq with h1 h2
      subst h1
      subst h2
      simp
    · have hk : k ≠ k2 := by
        intro h
        subst h
        exact hnd.1 (by
          have : k ∈ rest.map Prod.fst := by
            exact List.mem_map.2 ⟨(k, v), hmem2, rfl⟩
          exact this)
      rw [beq_false_of_ne hk]
      exact ih hmem2 hnd.2

theorem lookup_isSome_poly {α β : Type} [BEq α] [LawfulBEq α]
    (l : List (α × β)) (k : α) :
    (l.lookup k).isSome = true ↔ k ∈ l.map Prod.fst := by
  induction l with
  | nil => simp [List.lookup]
  | cons p rest ih =>
    rcases p with ⟨k2, v2⟩
    rw [List.lookup]
    by_cases h : k = k2
    · subst h
      simp
    · rw [beq_false_of_ne h]
      simpa [h] using ih

/-!
### Non-vanishing of the TIS transform

The TIS of a valid chroma is the zero vector exactly for the full 12-note
chroma (uniform distribution).  The doubled root-of-unity table has integer
coordinates over `1, √3`, so each unweighted DFT sum over a bit mask is a
quadruple of integers, and kernel computation settles every one of the 4096
masks.
-/

/-- `2·cos(2π·m/12)` as an integer pair `(a, b)` denoting `a + b·√3`. -/
def zCos (m : ℕ) : ℤ × ℤ :=
  match m % 12 with
  | 0 => (2, 0) | 1 => (0, 1) | 2 => (1, 0) | 3 => (0, 0)
  | 4 => (-1, 0) | 5 => (0, -1) | 6 => (-2, 0) | 7 => (0, -1)
  | 8 => (-1, 0) | 9 => (0, 0) | 10 => (1, 0) | _ => (0, 1)

/-- `2·sin(2π·m/12)` as an integer pair. -/
def zSin (m : ℕ) : ℤ × ℤ :=
  match m % 12 with
  | 0 => (0, 0) | 1 => (1, 0) | 2 => (0, 1) | 3 => (2, 0)
  | 4 => (0, 1) | 5 => (1, 0) | 6 => (0, 0) | 7 => (-1, 0)
  | 8 => (0, -1) | 9 => (-2, 0) | 10 => (0, -1) | _ => (-1, 0)

/-- The doubled (unweighted, unnormalized) DFT sum `Σ_{n ∈ mask} 2·e12(K,n)`
as integer pairs (real part, imaginary part). -/
def zDft (m K : ℕ) : (ℤ × ℤ) × (ℤ × ℤ) :=
  ((List.range 12).map
    (fun n => if m.testBit n then (zCos (K * n), -(zSin (K * n))) else 0)).sum

/-- An integer pair as the ℚ(√3) element `a + b·√3`. -/
def ofZ (p : ℤ × ℤ) : Ksq := ⟨(p.1 : ℚ), (p.2 : ℚ)⟩

/-- An integer-pair pair as a `KC` value. -/
def ofZC (p : (ℤ × ℤ) × (ℤ × ℤ)) : KC := ⟨ofZ p.1, ofZ p.2⟩

theorem ofZ_add (p q : ℤ × ℤ) : ofZ (p + q) = ofZ p + ofZ q := by
  apply Ksq.extQ' <;> simp [ofZ]

theorem ofZ_eq_zero {p : ℤ × ℤ} : ofZ p = 0 ↔ p = 0 := by
  constructor
  · intro h
    have h1 : ((p.1 : ℚ) = 0) ∧ ((p.2 : ℚ) = 0) := by
      constructor
      · have := congrArg Ksq.a h
        simpa [ofZ] using this
      · have := congrArg Ksq.b h
        simpa [ofZ] using this
    have : p.1 = 0 ∧ p.2 = 0 := by
      exact ⟨by exact_mod_cast h1.1, by exact_mod_cast h1.2⟩
    exact Prod.ext this.1 this.2
  · rintro rfl
    apply Ksq.extQ' <;> simp [ofZ]

theorem ofZC_add (p q : (ℤ × ℤ) × (ℤ × ℤ)) : ofZC (p + q) = ofZC p + ofZC q := by
  apply KC.extC' <;> simp [ofZC, ofZ_add]

theorem ofZC_zero : ofZC 0 = 0 := by
  apply KC.extC' <;> apply Ksq.extQ' <;> simp [ofZC, ofZ]

theorem ofZC_eq_zero {p : (ℤ × ℤ) × (ℤ × ℤ)} : ofZC p = 0 ↔ p = 0 := by
  constructor
  · intro h
    have h1 : ofZ p.1 = 0 := congrArg KC.re h
    have h2 : ofZ p.2 = 0 := congrArg KC.im h
    exact Prod.ext (ofZ_eq_zero.1 h1) (ofZ_eq_zero.1 h2)
  · rintro rfl
    exact ofZC_zero

theorem ofZC_list_sum (l : List ((ℤ × ℤ) × (ℤ × ℤ))) :
    ofZC l.sum = (l.map ofZC).sum := by
  induction l with
  | nil => simpa using ofZC_zero
  | cons p rest ih => simp [ofZC_add, ih]

theorem qsmul_add (q : ℚ) (x y : KC) :
    KC.qsmul q (x + y) = KC.qsmul q x + KC.qsmul q y := by
  apply KC.extC' <;> apply Ksq.extQ' <;> simp [KC.qsmul] <;> ring

theorem qsmul_zero (q : ℚ) : KC.qsmul q 0 = 0 := by
  apply KC.extC' <;> apply Ksq.extQ' <;> simp [KC.qsmul]

theorem qsmul_zero_scalar (x : KC) : KC.qsmul 0 x = 0 := by
  apply KC.extC' <;> apply Ksq.extQ' <;> simp [KC.qsmul]

theorem qsmul_one (x : KC) : KC.qsmul 1 x = x := by
  apply KC.extC' <;> apply Ksq.extQ' <;> simp [KC.qsmul]

theorem qsmul_mul (a b : ℚ) (x : KC) :
    KC.qsmul (a * b) x = KC.qsmul a (KC.qsmul b x) := by
  apply KC.extC' <;> apply Ksq.extQ' <;> simp [KC.qsmul] <;> ring

theorem qsmul_comm (a b : ℚ) (x : KC) :
    KC.qsmul a (KC.qsmul b x) = KC.qsmul b (KC.qsmul a x) := by
  rw [← qsmul_mul, mul_comm, qsmul_mul]

theorem qsmul_list_sum (q : ℚ) (l : List KC) :
    KC.qsmul q l.sum = (l.map (KC.qsmul q)).sum := by
  induction l with
  | nil => simpa using qsmul_zero q
  | cons x rest ih => simp [qsmul_add, ih]

theorem qsmul_components (q : ℚ) (x : KC) :
    (KC.qsmul q x).re.a = q * x.re.a ∧ (KC.qsmul q x).re.b = q * x.re.b ∧
    (KC.qsmul q x).im.a = q * x.im.a ∧ (KC.qsmul q x).im.b = q * x.im.b := by
  refine ⟨?_, ?_, ?_, ?_⟩ <;> simp [KC.qsmul] <;> ring

theorem qsmul_eq_zero_iff {q : ℚ} (hq : q ≠ 0) (x : KC) :
    KC.qsmul q x = 0 ↔ x = 0 := by
  constructor
  · intro h
    rcases qsmul_components q x with ⟨c1, c2, c3, c4⟩
    rw [h] at c1 c2 c3 c4
    simp only [KC.zero_re, KC.zero_im, Ksq.zero_a, Ksq.zero_b] at c1 c2 c3 c4
    have ha : x.re.a = 0 := (mul_eq_zero.1 c1.symm).resolve_left hq
    have hb : x.re.b = 0 := (mul_eq_zero.1 c2.symm).resolve_left hq
    have hc : x.im.a = 0 := (mul_eq_zero.1 c3.symm).resolve_left hq
    have hd : x.im.b = 0 := (mul_eq_zero.1 c4.symm).resolve_left hq
    apply KC.extC' <;> apply Ksq.extQ' <;> simp [ha, hb, hc, hd]
  · rintro rfl
    exact qsmul_zero q

/-- Doubling an `e12` entry yields the integer table entry. -/
theorem qsmul_two_e12 (K n : ℕ) :
    KC.qsmul 2 (e12 K n) = ofZC (zCos (K * n), -(zSin (K * n))) := by
  have h : (K * n) % 12 < 12 := Nat.mod_lt _ (by omega)
  rw [e12, cosTab, sinTab, zCos, zSin]
  generalize (K * n) % 12 = t at h
  interval_cases t <;>
    (apply KC.extC' <;> apply Ksq.extQ' <;>
      simp [KC.qsmul, ofZC, ofZ] <;> norm_num)

set_option maxRecDepth 4000 in
set_option maxHeartbeats 1000000 in
theorem zDft_chunk0 : ∀ r : Fin 512, (0 * 512 + r.val = 0) ∨
    (0 * 512 + r.val = 4095) ∨
    ∃ k : Fin 6, zDft (0 * 512 + r.val) (k.val + 1) ≠ 0 := by decide

set_option maxRecDepth 4000 in
set_option maxHeartbeats 1000000 in
theorem zDft_chunk1 : ∀ r : Fin 512, (1 * 512 + r.val = 0) ∨
    (1 * 512 + r.val = 4095) ∨
    ∃ k : Fin 6, zDft (1 * 512 + r.val) (k.val + 1) ≠ 0 := by decide

set_option maxRecDepth 4000 in
set_option maxHeartbeats 1000000 in
theorem zDft_chunk2 : ∀ r : Fin 512, (2 * 512 + r.val = 0) ∨
    (2 * 512 + r.val = 4095) ∨
    ∃ k : Fin 6, zDft (2 * 512 + r.val) (k.val + 1) ≠ 0 := by decide

set_option maxRecDepth 4000 in
set_option maxHeartbeats 1000000 in
theorem zDft_chunk3 : ∀ r : Fin 512, (3 * 512 + r.val = 0) ∨
    (3 * 512 + r.val = 4095) ∨
    ∃ k : Fin 6, zDft (3 * 512 + r.val) (k.val + 1) ≠ 0 := by decide

set_option maxRecDepth 4000 in
set_option maxHeartbeats 1000000 in
theorem zDft_chunk4 : ∀ r : Fin 512, (4 * 512 + r.val = 0) ∨
    (4 * 512 + r.val = 4095) ∨
    ∃ k : Fin 6, zDft (4 * 512 + r.val) (k.val + 1) ≠ 0 := by decide

set_option maxRecDepth 4000 in
set_option maxHeartbeats 1000000 in
theorem zDft_chunk5 : ∀ r : Fin 512, (5 * 512 + r.val = 0) ∨
    (5 * 512 + r.val = 4095) ∨
    ∃ k : Fin 6, zDft (5 * 512 + r.val) (k.val + 1) ≠ 0 := by decide

set_option maxRecDepth 4000 in
set_option maxHeartbeats 1000000 in
theorem zDft_chunk6 : ∀ r : Fin 512, (6 * 512 + r.val = 0) ∨
    (6 * 512 + r.val = 4095) ∨
    ∃ k : Fin 6, zDft (6 * 512 + r.val) (k.val + 1) ≠ 0 := by decide

set_option maxRecDepth 4000 in
set_option maxHeartbeats 1000000 in
theorem zDft_chunk7 : ∀ r : Fin 512, (7 * 512 + r.val = 0) ∨
    (7 * 512 + r.val = 4095) ∨
    ∃ k : Fin 6, zDft (7 * 512 + r.val) (k.val + 1) ≠ 0 := by decide

/-- Exhaustive fact: every mask other than 0 and 4095 has some non-vanishing
doubled DFT component. -/
theorem zDft_nonzero (m : ℕ) (hm : m < 4096) :
    m = 0 ∨ m = 4095 ∨ ∃ k : Fin 6, zDft m (k.val + 1) ≠ 0 := by
  have hr : m % 512 < 512 := Nat.mod_lt _ (by omega)
  have hq : m / 512 < 8 := by omega
  have hcase : m / 512 = 0 ∨ m / 512 = 1 ∨ m / 512 = 2 ∨ m / 512 = 3 ∨
      m / 512 = 4 ∨ m / 512 = 5 ∨ m / 512 = 6 ∨ m / 512 = 7 := by omega
  rcases hcase with h | h | h | h | h | h | h | h
  · rw [show m = 0 * 512 + m % 512 by omega]
    exact zDft_chunk0 ⟨m % 512, hr⟩
  · rw [show m = 1 * 512 + m % 512 by omega]
    exact zDft_chunk1 ⟨m % 512, hr⟩
  · rw [show m = 2 * 512 + m % 512 by omega]
    exact zDft_chunk2 ⟨m % 512, hr⟩
  · rw [show m = 3 * 512 + m % 512 by omega]
    exact zDft_chunk3 ⟨m % 512, hr⟩
  · rw [show m = 4 * 512 + m % 512 by omega]
    exact zDft_chunk4 ⟨m % 512, hr⟩
  · rw [show m = 5 * 512 + m % 512 by omega]
    exact zDft_chunk5 ⟨m % 512, hr⟩
  · rw [show m = 6 * 512 + m % 512 by omega]
    exact zDft_chunk6 ⟨m % 512, hr⟩
  · rw [show m = 7 * 512 + m % 512 by omega]
    exact zDft_chunk7 ⟨m % 512, hr⟩

theorem bits_coeff_eq_testBit (bits : List ℕ) (hlen : bits.length = 12)
    (hv : ValidBits bits) (n : ℕ) (hn : n < 12) :
    ((bits.map (fun b : ℕ => (b : ℚ))).getD n 0) =
      (if (bitsVal bits).testBit n then (1 : ℚ) else 0) := by
  have hn' : n < bits.length := by omega
  have hnm : n < (bits.map (fun b : ℕ => (b : ℚ))).length := by
    rw [List.length_map]
    exact hn'
  have hmap : (bits.map (fun b : ℕ => (b : ℚ))).getD n 0 = ((bits.getD n 0 : ℕ) : ℚ) := by
    rw [List.getD_eq_getElem _ _ hnm, List.getElem_map, List.getD_eq_getElem _ _ hn']
  rw [hmap]
  have hb := bitsVal_shiftRight bits hv n
  have hdm : bits.getD n 0 = bitsVal bits / 2 ^ n % 2 := by
    rw [← hb, Nat.and_one_is_mod, Nat.shiftRight_eq_div_pow]
  rcases htb : (bitsVal bits).testBit n with _ | _
  · rw [Nat.testBit_to_div_mod] at htb
    simp only [decide_eq_false_iff_not] at htb
    have hmod : bitsVal bits / 2 ^ n % 2 < 2 := Nat.mod_lt _ (by omega)
    have h0 : bits.getD n 0 = 0 := by omega
    rw [h0]
    simp
  · rw [Nat.testBit_to_div_mod] at htb
    simp only [decide_eq_true_eq] at htb
    have h1 : bits.getD n 0 = 1 := by omega
    rw [h1]
    simp

theorem bits_coeff_high (bits : List ℕ) (hlen : bits.length = 12) (n : ℕ)
    (hn : 12 ≤ n) :
    ((bits.map (fun b : ℕ => (b : ℚ))).getD n 0) =
      (if (bitsVal bits).testBit n then (1 : ℚ) else 0) := by
  have h1 : (bits.map (fun b : ℕ => (b : ℚ))).getD n 0 = 0 :=
    List.getD_eq_default _ _ (by simpa [hlen] using hn)
  have h2 : (bitsVal bits).testBit n = false := by
    apply Nat.testBit_lt_two_pow
    have := bitsVal_lt bits
    rw [hlen] at this
    calc bitsVal bits < 2 ^ 12 := this
      _ ≤ 2 ^ n := Nat.pow_le_pow_right (by omega) hn
  rw [h1, h2]
  simp

theorem dftRow_congr (f g : ℕ → ℚ) (h : ∀ n, n < 12 → f n = g n) (k : Fin 6) :
    dftRow f k = dftRow g k := by
  rw [dftRow, dftRow]
  congr 1
  apply List.map_congr_left
  intro n hn
  rw [h n (List.mem_range.1 hn)]

theorem dftRow_scale (f : ℕ → ℚ) (s : ℚ) (k : Fin 6) :
    dftRow (fun n => f n / s) k = KC.qsmul (1 / s) (dftRow f k) := by
  rw [dftRow, dftRow, qsmul_list_sum, List.map_map]
  congr 1
  apply List.map_congr_left
  intro n _
  simp only [Function.comp]
  rw [← qsmul_mul]
  congr 1
  ring

/-- The bridge from the exact DFT row of a 0/1 mask-indicator to the integer
table: doubling lands exactly on `zDft`. -/
theorem dft_bridge (m : ℕ) (k : Fin 6) :
    KC.qsmul 2 (dftRow (fun n => if m.testBit n then (1 : ℚ) else 0) k) =
      ofZC (zDft m (k.val + 1)) := by
  rw [dftRow, qsmul_list_sum, List.map_map, zDft, ofZC_list_sum, List.map_map]
  congr 1
  apply List.map_congr_left
  intro n _
  simp only [Function.comp]
  by_cases hb : m.testBit n
  · rw [if_pos hb, if_pos hb, qsmul_comm, qsmul_one, qsmul_two_e12]
  · rw [if_neg hb, if_neg hb, qsmul_zero_scalar, qsmul_zero, ofZC_zero]

theorem mul_ofQ_eq_zero_iff {w : ℚ} (hw : w ≠ 0) (x : KC) :
    x * KC.ofQ w = 0 ↔ x = 0 := by
  rw [mul_comm, KC.ofQ_mul_eq_qsmul]
  exact qsmul_eq_zero_iff hw x

theorem toReal_finset_sum {ι : Type} (s : Finset ι) (f : ι → Ksq) :
    Ksq.toReal (s.sum f) = s.sum (fun i => Ksq.toReal (f i)) := by
  let φ : Ksq →+ ℝ :=
    { toFun := Ksq.toReal, map_zero' := Ksq.toReal_zero, map_add' := Ksq.toReal_add }
  exact map_sum φ f s

theorem vecNormSq_toReal_nonneg (v : Fin 6 → KC) :
    0 ≤ Ksq.toReal (vecNormSqK v) := by
  rw [vecNormSqK, toReal_finset_sum]
  apply Finset.sum_nonneg
  intro i _
  exact KC.toReal_normSq_nonneg (v i)

theorem vecNormSq_toReal_pos (v : Fin 6 → KC) (h : ∃ k, v k ≠ 0) :
    0 < Ksq.toReal (vecNormSqK v) := by
  rcases h with ⟨k0, hk0⟩
  rw [vecNormSqK, toReal_finset_sum]
  apply Finset.sum_pos'
  · intro i _
    exact KC.toReal_normSq_nonneg (v i)
  · exact ⟨k0, Finset.mem_univ k0, KC.toReal_normSq_pos hk0⟩

theorem vecNormSq_zero_vec (v : Fin 6 → KC) (h : ∀ k, v k = 0) :
    Ksq.toReal (vecNormSqK v) = 0 := by
  rw [vecNormSqK]
  have hz : (Finset.univ.sum (fun k => KC.normSq (v k))) = 0 := by
    apply Finset.sum_eq_zero
    intro i _
    rw [h i]
    apply Ksq.extQ' <;> simp [KC.normSq]
  rw [hz, Ksq.toReal_zero]

theorem bitsVal_eq_zero_iff (bits : List ℕ) (hv : ValidBits bits) :
    bitsVal bits = 0 ↔ ∀ b ∈ bits, b = 0 := by
  induction bits with
  | nil => simp [bitsVal]
  | cons b bs ih =>
    have hb : b = 0 ∨ b = 1 := hv b (List.mem_cons_self b bs)
    have hbs : ValidBits bs := fun x hx => hv x (List.mem_cons_of_mem b hx)
    rw [bitsVal]
    constructor
    · intro h
      have h1 : (if b = 1 then 1 else 0) = 0 ∧ bitsVal bs = 0 := by omega
      intro x hx
      rcases List.mem_cons.1 hx with rfl | hx2
      · rcases hb with h0 | h0
        · exact h0
        · rw [h0] at h1
          simp at h1
      · exact (ih hbs).1 h1.2 x hx2
    · intro h
      have hb0 : b = 0 := h b (List.mem_cons_self b bs)
      have : bitsVal bs = 0 := (ih hbs).2 (fun x hx => h x (List.mem_cons_of_mem b hx))
      rw [hb0, this]
      simp

theorem bitsVal_eq_allones (bits : List ℕ) (hlen : bits.length = 12)
    (hv : ValidBits bits) (h : bitsVal bits = 4095) :
    bits = List.replicate 12 1 := by
  apply List.ext_getElem
  · simp [hlen]
  · intro n hn _
    have hn12 : n < 12 := by rw [hlen] at hn; exact hn
    have hb := bitsVal_shiftRight bits hv n
    rw [h] at hb
    have hone : (4095 >>> n) &&& 1 = 1 := by
      interval_cases n <;> rfl
    rw [hone] at hb
    rw [List.getElem_replicate]
    rw [← List.getD_eq_getElem bits 0 hn]
    exact hb.symm

theorem nat_mem_le_sum (l : List ℕ) (a : ℕ) (h : a ∈ l) : a ≤ l.sum := by
  induction l with
  | nil => simp at h
  | cons x xs ih =>
    rw [List.sum_cons]
    rcases List.mem_cons.1 h with rfl | h2
    · omega
    · have := ih h2
      omega

theorem default_weights_ne_zero (k : Fin 6) : DEFAULT_WEIGHTS k ≠ 0 := by
  fin_cases k <;>
    norm_num [DEFAULT_WEIGHTS, Matrix.cons_val_zero, Matrix.cons_val_succ]

/-- Core positivity: a valid, non-empty, not-full chroma has a non-vanishing
TIS component. -/
theorem tis_component_ne_zero (bits : List ℕ) (hlen : bits.length = 12)
    (hv : ValidBits bits) (hnz : ∃ b ∈ bits, b ≠ 0)
    (hno : bits ≠ List.replicate 12 1) :
    ∃ k : Fin 6, tisRowOf (bits.map (fun b : ℕ => (b : ℚ))) DEFAULT_WEIGHTS k ≠ 0 := by
  have hm_lt : bitsVal bits < 4096 := by
    have := bitsVal_lt bits
    rw [hlen] at this
    norm_num at this
    exact this
  have hm0 : bitsVal bits ≠ 0 := by
    intro h
    rcases hnz with ⟨b, hb, hbne⟩
    exact hbne ((bitsVal_eq_zero_iff bits hv).1 h b hb)
  have hm1 : bitsVal bits ≠ 4095 := by
    intro h
    exact hno (bitsVal_eq_allones bits hlen hv h)
  rcases zDft_nonzero (bitsVal bits) hm_lt with h | h | h
  · exact absurd h hm0
  · exact absurd h hm1
  rcases h with ⟨k0, hk0⟩
  refine ⟨k0, ?_⟩
  intro hzero
  -- sum of the rational row is the (nonzero) natural sum
  have hsum_cast : ((bits.map (fun b : ℕ => (b : ℚ))).sum) = ((bits.sum : ℕ) : ℚ) := by
    rw [Nat.cast_list_sum]
  have hsum_ne : ((bits.sum : ℕ) : ℚ) ≠ 0 := by
    rcases hnz with ⟨b, hb, hbne⟩
    have hble := nat_mem_le_sum bits b hb
    have : bits.sum ≠ 0 := by omega
    exact_mod_cast this
  rw [tisRowOf] at hzero
  rw [mul_ofQ_eq_zero_iff (default_weights_ne_zero k0)] at hzero
  have hcongr : dftRow (fun n => (bits.map (fun b : ℕ => (b : ℚ))).getD n 0 /
      (bits.map (fun b : ℕ => (b : ℚ))).sum) k0 =
      dftRow (fun n => (if (bitsVal bits).testBit n then (1 : ℚ) else 0) /
        ((bits.sum : ℕ) : ℚ)) k0 := by
    apply dftRow_congr
    intro n hn
    rw [bits_coeff_eq_testBit bits hlen hv n hn, hsum_cast]
  rw [hcongr, dftRow_scale] at hzero
  have hdft0 : dftRow (fun n => if (bitsVal bits).testBit n then (1 : ℚ) else 0) k0 = 0 := by
    have hinv : (1 : ℚ) / ((bits.sum : ℕ) : ℚ) ≠ 0 := one_div_ne_zero hsum_ne
    exact (qsmul_eq_zero_iff hinv _).1 hzero
  have := dft_bridge (bitsVal bits) k0
  rw [hdft0, qsmul_zero] at this
  exact hk0 (ofZC_eq_zero.1 this.symm)

/-- The full 12-note chroma has identically zero TIS. -/
theorem tis_allones_zero (k : Fin 6) :
    tisRowOf ((List.replicate 12 1).map (fun b : ℕ => (b : ℚ))) DEFAULT_WEIGHTS k = 0 := by
  have hbits : bitsVal (List.replicate 12 1) = 4095 := by rfl
  have hzero : zDft 4095 (k.val + 1) = 0 := by
    fin_cases k <;> decide
  have hsum_cast : (((List.replicate 12 1).map (fun b : ℕ => (b : ℚ))).sum) =
      (((List.replicate 12 1).sum : ℕ) : ℚ) := by
    rw [Nat.cast_list_sum]
  rw [tisRowOf]
  have hcongr : dftRow (fun n => ((List.replicate 12 1).map (fun b : ℕ => (b : ℚ))).getD n 0 /
      ((List.replicate 12 1).map (fun b : ℕ => (b : ℚ))).sum) k =
      dftRow (fun n => (if (4095 : ℕ).testBit n then (1 : ℚ) else 0) /
        (((List.replicate 12 1).sum : ℕ) : ℚ)) k := by
    apply dftRow_congr
    intro n hn
    rw [bits_coeff_eq_testBit (List.replicate 12 1) (by simp) (by decide) n hn,
      hsum_cast, hbits]
  rw [hcongr, dftRow_scale]
  have hdft0 : dftRow (fun n => if (4095 : ℕ).testBit n then (1 : ℚ) else 0) k = 0 := by
    apply (qsmul_eq_zero_iff (by norm_num : (2:ℚ) ≠ 0) _).1
    rw [dft_bridge, hzero, ofZC_zero]
  rw [hdft0, qsmul_zero, zero_mul]

/-!
### Membership and shape facts for the index builder
-/

theorem foldl_min_mem (lt : String → String → Prop) [DecidableRel lt]
    (xs : List String) : ∀ x : String,
    xs.foldl (fun best n => if lt n best then n else best) x ∈ x :: xs := by
  induction xs with
  | nil =>
    intro x
    simp
  | cons y ys ih =>
    intro x
    rw [List.foldl_cons]
    rcases List.mem_cons.1 (ih (if lt y x then y else x)) with h2 | h2
    · rw [h2]
      by_cases hlt : lt y x
      · rw [if_pos hlt]
        exact List.mem_cons_of_mem _ (List.mem_cons_self _ _)
      · rw [if_neg hlt]
        exact List.mem_cons_self _ _
    · exact List.mem_cons_of_mem _ (List.mem_cons_of_mem _ h2)

theorem minByLt_mem (lt : String → String → Prop) [DecidableRel lt]
    (x : String) (xs : List String) : minByLt lt x xs ∈ x :: xs :=
  foldl_min_mem lt xs x

theorem choose_representative_mem (names : List String) (h : names ≠ []) :
    choose_representative names ∈ names := by
  cases names with
  | nil => exact absurd rfl h
  | cons x xs => exact minByLt_mem prefKeyLt x xs

theorem choose_shortest_no_slash_mem (names : List String) (h : names ≠ []) :
    choose_shortest_no_slash names ∈ names := by
  have hpool : ∀ l : List String,
      (if (names.filter (fun n => !n.data.contains '/')).isEmpty then names
        else names.filter (fun n => !n.data.contains '/')) = l →
      l ≠ [] ∧ l ⊆ names := by
    intro l hl
    by_cases he : (names.filter (fun n => !n.data.contains '/')).isEmpty
    · rw [if_pos he] at hl
      exact ⟨hl ▸ h, hl ▸ (fun a ha => ha)⟩
    · rw [if_neg he] at hl
      constructor
      · intro hnil
        rw [hnil] at hl
        rw [hl] at he
        exact he rfl
      · intro a ha
        rw [← hl] at ha
        exact (List.mem_filter.1 ha).1
  show (match (if (names.filter (fun n => !n.data.contains '/')).isEmpty then names
      else names.filter (fun n => !n.data.contains '/')) with
    | [] => ""
    | x :: xs => minByLt shortLexLt x xs) ∈ names
  rcases hp : (if (names.filter (fun n => !n.data.contains '/')).isEmpty then names
      else names.filter (fun n => !n.data.contains '/')) with _ | ⟨x, xs⟩
  · exact absurd rfl (hpool [] hp).1
  · rw [hp]
    exact (hpool (x :: xs) hp).2 (minByLt_mem shortLexLt x xs)

theorem addToGroup_prop (P : String → Prop) (gs : List (String × List String))
    (r n : String) (hgs : ∀ p ∈ gs, ∀ x ∈ p.2, P x) (hn : P n) :
    ∀ p ∈ addToGroup gs r n, ∀ x ∈ p.2, P x := by
  induction gs with
  | nil =>
    intro p hp x hx
    rw [addToGroup] at hp
    rcases List.mem_singleton.1 hp with rfl
    rcases List.mem_singleton.1 hx with rfl
    exact hn
  | cons q rest ih =>
    rcases q with ⟨k, v⟩
    intro p hp x hx
    rw [addToGroup] at hp
    by_cases hk : k = r
    · rw [if_pos hk] at hp
      rcases List.mem_cons.1 hp with rfl | hp2
      · rcases List.mem_append.1 hx with hx1 | hx2
        · exact hgs (k, v) (List.mem_cons_self _ _) x hx1
        · rcases List.mem_singleton.1 hx2 with rfl
          exact hn
      · exact hgs p (List.mem_cons_of_mem _ hp2) x hx
    · rw [if_neg hk] at hp
      rcases List.mem_cons.1 hp with rfl | hp2
      · exact hgs (k, v) (List.mem_cons_self _ _) x hx
      · exact ih (fun r2 hr => hgs r2 (List.mem_cons_of_mem _ hr)) p hp2 x hx

theorem addToGroup_nonempty (gs : List (String × List String)) (r n : String)
    (hgs : ∀ p ∈ gs, p.2 ≠ []) : ∀ p ∈ addToGroup gs r n, p.2 ≠ [] := by
  induction gs with
  | nil =>
    intro p hp
    rw [addToGroup] at hp
    rcases List.mem_singleton.1 hp with rfl
    simp
  | cons q rest ih =>
    rcases q with ⟨k, v⟩
    intro p hp
    rw [addToGroup] at hp
    by_cases hk : k = r
    · rw [if_pos hk] at hp
      rcases List.mem_cons.1 hp with rfl | hp2
      · simp
      · exact hgs p (List.mem_cons_of_mem _ hp2)
    · rw [if_neg hk] at hp
      rcases List.mem_cons.1 hp with rfl | hp2
      · exact hgs (k, v) (List.mem_cons_self _ _)
      · exact ih (fun q2 hq => hgs q2 (List.mem_cons_of_mem _ hq)) p hp2

theorem foldl_addToGroup_inv (names : List String) (l : List String) :
    ∀ acc : List (String × List String),
      (∀ y ∈ l, y ∈ names) →
      (∀ p ∈ acc, p.2 ≠ [] ∧ ∀ y ∈ p.2, y ∈ names) →
      ∀ p ∈ l.foldl (fun acc n =>
          if chord_root n = "" then acc else addToGroup acc (chord_root n) n) acc,
        p.2 ≠ [] ∧ ∀ y ∈ p.2, y ∈ names := by
  induction l with
  | nil => exact fun acc _ hacc => hacc
  | cons n rest ih =>
    intro acc hl hacc
    rw [List.foldl_cons]
    apply ih
    · exact fun y hy => hl y (List.mem_cons_of_mem _ hy)
    · intro p hp
      have hp2 : p ∈ (if chord_root n = "" then acc
          else addToGroup acc (chord_root n) n) := hp
      by_cases hr : chord_root n = ""
      · rw [if_pos hr] at hp2
        exact hacc p hp2
      · rw [if_neg hr] at hp2
        constructor
        · exact addToGroup_nonempty acc (chord_root n) n
            (fun q hq => (hacc q hq).1) p hp2
        · exact addToGroup_prop (fun y => y ∈ names) acc (chord_root n) n
            (fun q hq => (hacc q hq).2) (hl n (List.mem_cons_self _ _)) p hp2

theorem choose_representatives_by_root_mem (names : List String) :
    ∀ x ∈ choose_representatives_by_root names, x ∈ names := by
  intro x hx
  have hx2 : x ∈ ((names.foldl
      (fun acc n => if chord_root n = "" then acc else addToGroup acc (chord_root n) n)
      []).map (fun p => choose_shortest_no_slash p.2)) :=
    (List.perm_insertionSort prefKeyLe _).subset hx
  rcases List.mem_map.1 hx2 with ⟨p, hp, rfl⟩
  have hinv := foldl_addToGroup_inv names names [] (fun y hy => hy) (by simp) p hp
  exact hinv.2 _ (choose_shortest_no_slash_mem p.2 hinv.1)

theorem addAlias_nonempty (gs : List (ℕ × List String)) (m : ℕ) (n : String)
    (hgs : ∀ p ∈ gs, p.2 ≠ []) : ∀ p ∈ addAlias gs m n, p.2 ≠ [] := by
  induction gs with
  | nil =>
    intro p hp
    rw [addAlias] at hp
    rcases List.mem_singleton.1 hp with rfl
    simp
  | cons q rest ih =>
    rcases q with ⟨k, v⟩
    intro p hp
    rw [addAlias] at hp
    by_cases hk : k = m
    · rw [if_pos hk] at hp
      rcases List.mem_cons.1 hp with rfl | hp2
      · simp
      · exact hgs p (List.mem_cons_of_mem _ hp2)
    · rw [if_neg hk] at hp
      rcases List.mem_cons.1 hp with rfl | hp2
      · exact hgs (k, v) (List.mem_cons_self _ _)
      · exact ih (fun q2 hq => hgs q2 (List.mem_cons_of_mem _ hq)) p hp2

theorem maskGroups_nonempty (chords : List (String × List ℕ)) :
    ∀ p ∈ maskGroups chords, p.2 ≠ [] := by
  have general : ∀ (l : List (String × List ℕ)) (acc : List (ℕ × List String)),
      (∀ p ∈ acc, p.2 ≠ []) →
      ∀ p ∈ l.foldl (fun acc q => addAlias acc (bitsVal q.2) q.1) acc, p.2 ≠ [] := by
    intro l
    induction l with
    | nil => exact fun acc hacc => hacc
    | cons q rest ih =>
      intro acc hacc
      rw [List.foldl_cons]
      exact ih _ (addAlias_nonempty acc (bitsVal q.2) q.1 hacc)
  exact general chords [] (by simp)

theorem aliasesOfMask_mem (groups : List (ℕ × List String)) (m : ℕ) (x : String) :
    x ∈ aliasesOfMask groups m ↔ x ∈ (groups.lookup m).getD [] := by
  rw [aliasesOfMask]
  exact (List.perm_insertionSort _ _).mem_iff

theorem aliasesOfMask_ne_nil (chords : List (String × List ℕ)) (m : ℕ)
    (hm : m ∈ (maskGroups chords).map Prod.fst) :
    aliasesOfMask (maskGroups chords) m ≠ [] := by
  have hs := (lookup_isSome_poly (maskGroups chords) m).2 hm
  rcases ho : (maskGroups chords).lookup m with _ | v
  · rw [ho] at hs
    simp at hs
  · have hmem := lookup_mem_poly _ _ _ ho
    have hne := maskGroups_nonempty chords (m, v) hmem
    intro hnil
    rw [aliasesOfMask, ho, Option.getD_some] at hnil
    have hperm := List.perm_insertionSort (fun a b : String => a ≤ b) v
    rw [hnil] at hperm
    exact hne hperm.symm.eq_nil

theorem repOfMask_mem (chords : List (String × List ℕ)) (m : ℕ)
    (hm : m ∈ (maskGroups chords).map Prod.fst) :
    repOfMask (maskGroups chords) m ∈ aliasesOfMask (maskGroups chords) m := by
  rw [repOfMask]
  by_cases hre : (repsOfMask (maskGroups chords) m).isEmpty
  · rw [if_pos hre]
    exact choose_representative_mem _ (aliasesOfMask_ne_nil chords m hm)
  · rw [if_neg hre]
    have hne : repsOfMask (maskGroups chords) m ≠ [] := by
      intro hnil
      rw [hnil] at hre
      exact hre rfl
    exact choose_representatives_by_root_mem _ _ (choose_representative_mem _ hne)

theorem rep_bits_exists (chords : List (String × List ℕ)) (m : ℕ)
    (hm : m ∈ (maskGroups chords).map Prod.fst) :
    ∃ bits, (repOfMask (maskGroups chords) m, bits) ∈ chords ∧ bitsVal bits = m := by
  have hrep := repOfMask_mem chords m hm
  rw [aliasesOfMask_mem] at hrep
  rcases ho : (maskGroups chords).lookup m with _ | v
  · rw [ho] at hrep
    simp at hrep
  · rw [ho, Option.getD_some] at hrep
    have hmem := lookup_mem_poly _ _ _ ho
    exact maskGroups_prop chords (m, v) hmem _ hrep

theorem row_facts (chords : List (String × List ℕ))
    (hnd : (chords.map Prod.fst).Nodup)
    (hval : ∀ p ∈ chords, p.2.length = 12 ∧ ValidBits p.2 ∧
      (∃ b ∈ p.2, b ≠ 0) ∧ p.2 ≠ List.replicate 12 1)
    (m : ℕ) (hm : m ∈ (maskGroups chords).map Prod.fst) :
    0 < Real.sqrt (Ksq.toReal (vecNormSqK
      (tisRowOf (((chords.lookup (repOfMask (maskGroups chords) m)).getD []).map
        (fun b : ℕ => (b : ℚ))) DEFAULT_WEIGHTS))) := by
  rcases rep_bits_exists chords m hm with ⟨bits, hmem, hbv⟩
  have hlk := lookup_of_mem_nodup chords _ bits hmem hnd
  rw [hlk, Option.getD_some]
  rcases hval _ hmem with ⟨hlen, hv, hnz, hno⟩
  exact Real.sqrt_pos.2 (vecNormSq_toReal_pos _
    (tis_component_ne_zero bits hlen hv hnz hno))

theorem length_flatMap_sum {α β : Type} (l : List α) (f : α → List β) :
    (l.flatMap f).length = (l.map (fun a => (f a).length)).sum := by
  rw [List.flatMap_def, List.length_flatten, List.map_map]
  rfl

theorem build_chroma_mask (chords : List (String × List ℕ)) :
    (build_tis_index chords).chroma_mask =
      ((maskGroups chords).map Prod.fst).insertionSort (· ≤ ·) := rfl

theorem build_rep_offsets (chords : List (String × List ℕ)) :
    (build_tis_index chords).rep_offsets =
      cumsum 0 ((((maskGroups chords).map Prod.fst).insertionSort (· ≤ ·)).map
        (fun m => (repSliceOfMask (maskGroups chords) m).length)) := rfl

theorem build_rep_names_by_root (chords : List (String × List ℕ)) :
    (build_tis_index chords).rep_names_by_root =
      (((maskGroups chords).map Prod.fst).insertionSort (· ≤ ·)).flatMap
        (fun m => repSliceOfMask (maskGroups chords) m) := rfl

theorem build_alias_offsets (chords : List (String × List ℕ)) :
    (build_tis_index chords).alias_offsets =
      cumsum 0 ((((maskGroups chords).map Prod.fst).insertionSort (· ≤ ·)).map
        (fun m => (aliasesOfMask (maskGroups chords) m).length)) := rfl

theorem build_alias_names (chords : List (String × List ℕ)) :
    (build_tis_index chords).alias_names =
      (((maskGroups chords).map Prod.fst).insertionSort (· ≤ ·)).flatMap
        (fun m => aliasesOfMask (maskGroups chords) m) := rfl

theorem build_tis (chords : List (String × List ℕ)) :
    (build_tis_index chords).tis =
      (((maskGroups chords).map Prod.fst).insertionSort (· ≤ ·)).map
        (fun m => tisRowOf (((chords.lookup (repOfMask (maskGroups chords) m)).getD
          []).map (fun b : ℕ => (b : ℚ))) DEFAULT_WEIGHTS) := rfl

theorem build_tis_norm (chords : List (String × List ℕ)) :
    (build_tis_index chords).tis_norm =
      ((((maskGroups chords).map Prod.fst).insertionSort (· ≤ ·)).map
        (fun m => tisRowOf (((chords.lookup (repOfMask (maskGroups chords) m)).getD
          []).map (fun b : ℕ => (b : ℚ))) DEFAULT_WEIGHTS)).map
        (fun t => Real.sqrt (Ksq.toReal (vecNormSqK t))) := rfl

theorem build_tis_unit (chords : List (String × List ℕ)) :
    (build_tis_index chords).tis_unit =
      ((((maskGroups chords).map Prod.fst).insertionSort (· ≤ ·)).map
        (fun m => tisRowOf (((chords.lookup (repOfMask (maskGroups chords) m)).getD
          []).map (fun b : ℕ => (b : ℚ))) DEFAULT_WEIGHTS)).map
        (fun t => fun k => KCtoC (t k) /
          (Real.sqrt (Ksq.toReal (vecNormSqK t)) : ℂ)) := rfl

/-- C6 (amended): on a chord dictionary with distinct names whose chroma rows
are valid 12-entry 0/1 vectors, each with at least one set bit and none equal
to the full 12-note chroma, `build_tis_index` satisfies: `chroma_mask` is
strictly increasing (hence unique); `rep_offsets` and `alias_offsets` are
non-decreasing, start at 0, and end at the lengths of `rep_names_by_root` and
`alias_names`; every row has `tis_norm[i] > 0` and
`tis_unit[i] = tis[i] / tis_norm[i]`; and every alias of row `i` maps under
`bits_to_mask` to `chroma_mask[i]`.  The claim's unconditional
`tis_norm[i] > 0` fails for the full chroma: see the counterexample. -/
theorem C6_index_invariants (chords : List (String × List ℕ))
    (hnd : (chords.map Prod.fst).Nodup)
    (hval : ∀ p ∈ chords, p.2.length = 12 ∧ ValidBits p.2 ∧
      (∃ b ∈ p.2, b ≠ 0) ∧ p.2 ≠ List.replicate 12 1) :
    List.Pairwise (· < ·) (build_tis_index chords).chroma_mask ∧
    (List.Chain' (· ≤ ·) (build_tis_index chords).rep_offsets ∧
      (build_tis_index chords).rep_offsets.head? = some 0 ∧
      (build_tis_index chords).rep_offsets.getLast? =
        some (build_tis_index chords).rep_names_by_root.length) ∧
    (List.Chain' (· ≤ ·) (build_tis_index chords).alias_offsets ∧
      (build_tis_index chords).alias_offsets.head? = some 0 ∧
      (build_tis_index chords).alias_offsets.getLast? =
        some (build_tis_index chords).alias_names.length) ∧
    (∀ i, i < (build_tis_index chords).tis_norm.length →
      0 < (build_tis_index chords).tis_norm.getD i 0 ∧
      (build_tis_index chords).tis_unit.getD i (fun _ => 0) = fun k =>
        KCtoC ((build_tis_index chords).tis.getD i (fun _ => 0) k) /
          ((build_tis_index chords).tis_norm.getD i 0 : ℂ)) ∧
    (∀ i, i < (build_tis_index chords).chroma_mask.length →
      ∀ x ∈ aliases_for_row (build_tis_index chords) i,
        ∃ bits, (x, bits) ∈ chords ∧
          bits_to_mask bits =
            .ok ((build_tis_index chords).chroma_mask.getD i 0)) := by
  refine ⟨?_, ⟨?_, ?_, ?_⟩, ⟨?_, ?_, ?_⟩, ?_, ?_⟩
  · rw [build_chroma_mask]
    have hsorted : List.Sorted (· ≤ ·)
        (((maskGroups chords).map Prod.fst).insertionSort (· ≤ ·)) :=
      List.sorted_insertionSort _ _
    have hnd2 : (((maskGroups chords).map Prod.fst).insertionSort (· ≤ ·)).Nodup :=
      (List.perm_insertionSort _ _).nodup_iff.2 (maskGroups_keys_nodup chords)
    exact hsorted.lt_of_le hnd2
  · rw [build_rep_offsets]
    exact cumsum_chain _ _
  · rw [build_rep_offsets]
    exact cumsum_head _ _
  · rw [build_rep_offsets, build_rep_names_by_root, cumsum_getLast,
      length_flatMap_sum]
    norm_num
  · rw [build_alias_offsets]
    exact cumsum_chain _ _
  · rw [build_alias_offsets]
    exact cumsum_head _ _
  · rw [build_alias_offsets, build_alias_names, cumsum_getLast,
      length_flatMap_sum]
    norm_num
  · intro i hi
    rw [build_tis_norm, List.length_map, List.length_map] at hi
    have hmem : (((maskGroups chords).map Prod.fst).insertionSort (· ≤ ·))[i] ∈
        (maskGroups chords).map Prod.fst :=
      (List.perm_insertionSort _ _).subset (List.getElem_mem _)
    constructor
    · rw [build_tis_norm,
        List.getD_eq_getElem _ _ (by simpa using hi),
        List.getElem_map, List.getElem_map]
      exact row_facts chords hnd hval _ hmem
    · rw [build_tis_unit, build_tis, build_tis_norm,
        List.getD_eq_getElem _ _ (by simpa using hi),
        List.getD_eq_getElem _ _ (by simpa using hi),
        List.getD_eq_getElem _ _ (by simpa using hi),
        List.getElem_map, List.getElem_map, List.getElem_map, List.getElem_map]
  · intro i hi x hx
    rw [build_chroma_mask] at hi
    rw [aliases_for_row, build_alias_names, build_alias_offsets,
      flatMap_slice _ _ i hi] at hx
    have hx2 := (aliasesOfMask_mem (maskGroups chords) _ x).1 hx
    rcases ho : (maskGroups chords).lookup
        ((((maskGroups chords).map Prod.fst).insertionSort (· ≤ ·))[i]) with _ | v
    · rw [ho] at hx2
      simp at hx2
    · rw [ho, Option.getD_some] at hx2
      have hmem := lookup_mem_poly _ _ _ ho
      rcases maskGroups_prop chords _ hmem x hx2 with ⟨bits, hbmem, hbv⟩
      refine ⟨bits, hbmem, ?_⟩
      rcases hval _ hbmem with ⟨hlen, hv, _, _⟩
      rw [bits_to_mask_ok bits hlen hv, hbv, build_chroma_mask,
        List.getD_eq_getElem _ _ hi]

theorem C6_index_invariants_witness :
    List.Pairwise (· < ·)
      (build_tis_index [("C", [1,0,0,0,1,0,0,1,0,0,0,0])]).chroma_mask ∧
    (List.Chain' (· ≤ ·) (build_tis_index [("C", [1,0,0,0,1,0,0,1,0,0,0,0])]).rep_offsets ∧
      (build_tis_index [("C", [1,0,0,0,1,0,0,1,0,0,0,0])]).rep_offsets.head? = some 0 ∧
      (build_tis_index [("C", [1,0,0,0,1,0,0,1,0,0,0,0])]).rep_offsets.getLast? =
        some (build_tis_index [("C", [1,0,0,0,1,0,0,1,0,0,0,0])]).rep_names_by_root.length) ∧
    (List.Chain' (· ≤ ·) (build_tis_index [("C", [1,0,0,0,1,0,0,1,0,0,0,0])]).alias_offsets ∧
      (build_tis_index [("C", [1,0,0,0,1,0,0,1,0,0,0,0])]).alias_offsets.head? = some 0 ∧
      (build_tis_index [("C", [1,0,0,0,1,0,0,1,0,0,0,0])]).alias_offsets.getLast? =
        some (build_tis_index [("C", [1,0,0,0,1,0,0,1,0,0,0,0])]).alias_names.length) ∧
    (∀ i, i < (build_tis_index [("C", [1,0,0,0,1,0,0,1,0,0,0,0])]).tis_norm.length →
      0 < (build_tis_index [("C", [1,0,0,0,1,0,0,1,0,0,0,0])]).tis_norm.getD i 0 ∧
      (build_tis_index [("C", [1,0,0,0,1,0,0,1,0,0,0,0])]).tis_unit.getD i (fun _ => 0) =
        fun k => KCtoC
          ((build_tis_index [("C", [1,0,0,0,1,0,0,1,0,0,0,0])]).tis.getD i (fun _ => 0) k) /
          ((build_tis_index [("C", [1,0,0,0,1,0,0,1,0,0,0,0])]).tis_norm.getD i 0 : ℂ)) ∧
    (∀ i, i < (build_tis_index [("C", [1,0,0,0,1,0,0,1,0,0,0,0])]).chroma_mask.length →
      ∀ x ∈ aliases_for_row (build_tis_index [("C", [1,0,0,0,1,0,0,1,0,0,0,0])]) i,
        ∃ bits, (x, bits) ∈ [("C", [1,0,0,0,1,0,0,1,0,0,0,0])] ∧
          bits_to_mask bits =
            .ok ((build_tis_index [("C", [1,0,0,0,1,0,0,1,0,0,0,0])]).chroma_mask.getD i 0)) :=
  C6_index_invariants [("C", [1,0,0,0,1,0,0,1,0,0,0,0])] (by decide) (by decide)

/-- The original C6 fails on the full 12-note chord: its TIS row is the zero
vector, so `tis_norm[0] = 0`, not `> 0`. -/
theorem C6_counterexample :
    (build_tis_index [("C", List.replicate 12 1)]).tis_norm.getD 0 0 = 0 := by
  have hmasks : (((maskGroups [("C", List.replicate 12 1)]).map Prod.fst).insertionSort
      (· ≤ ·)) = [4095] := by decide
  have hrep : repOfMask (maskGroups [("C", List.replicate 12 1)]) 4095 = "C" := by
    rfl
  have hlk : ([("C", List.replicate 12 1)].lookup "C") = some (List.replicate 12 1) := by
    rfl
  rw [build_tis_norm, hmasks, List.map_cons, List.map_nil, List.map_cons,
    List.map_nil, List.getD_cons_zero, hrep, hlk, Option.getD_some]
  rw [vecNormSq_zero_vec _ tis_allones_zero, Real.sqrt_zero]

end Jass
